import Mathlib

/-!
Verification of the guee widget-toolkit core: a shallow embedding, in Lean 4,
of the box-layout algorithm, the focus and drag arbiter, the persistent memory
store, and the callback and accessor subsystem, translated from the Rust
sources under src/guee/src.  Machine floats (f32) are modelled by rationals;
widget identifiers and type identifiers (TypeId) are modelled by naturals.
-/

namespace Guee

/-! ### Geometry (epaint Vec2, Pos2, Rect modelled over the rationals) -/

/-- Model of epaint Vec2 with rational coordinates. -/
structure Vec2 where
  x : ℚ
  y : ℚ
deriving DecidableEq, Repr

/-- Model of epaint Pos2 with rational coordinates. -/
structure Pos2 where
  x : ℚ
  y : ℚ
deriving DecidableEq, Repr

/-- Vec2 zero constant. -/
def Vec2.ZERO : Vec2 := ⟨0, 0⟩

/-- Vec2 unit x constant. -/
def Vec2.X : Vec2 := ⟨1, 0⟩

/-- Vec2 unit y constant. -/
def Vec2.Y : Vec2 := ⟨0, 1⟩

/-- Componentwise addition of vectors. -/
def Vec2.add (a b : Vec2) : Vec2 := ⟨a.x + b.x, a.y + b.y⟩

/-- Negation of a vector. -/
def Vec2.neg (a : Vec2) : Vec2 := ⟨-a.x, -a.y⟩

/-- Scalar multiplication of a vector (Rust Vec2 * f32). -/
def Vec2.scale (a : Vec2) (k : ℚ) : Vec2 := ⟨a.x * k, a.y * k⟩

/-- Offsetting a position by a vector. -/
def Pos2.addVec (p : Pos2) (v : Vec2) : Pos2 := ⟨p.x + v.x, p.y + v.y⟩

/-- Model of Pos2 to_vec2. -/
def Pos2.to_vec2 (p : Pos2) : Vec2 := ⟨p.x, p.y⟩

/-- Pos2 zero constant. -/
def Pos2.ZERO : Pos2 := ⟨0, 0⟩

/-- Euclidean distance squared between positions; the source compares
distance against a threshold, which we express squared to stay rational. -/
def Pos2.distSq (a b : Pos2) : ℚ := (a.x - b.x) ^ 2 + (a.y - b.y) ^ 2

/-- Model of epaint Rect: min and max corner. -/
structure Rect where
  min : Pos2
  max : Pos2
deriving DecidableEq, Repr

/-- Model of Rect::from_min_size. -/
def Rect.from_min_size (min : Pos2) (size : Vec2) : Rect :=
  ⟨min, min.addVec size⟩

/-- Model of Rect::size. -/
def Rect.size (r : Rect) : Vec2 := ⟨r.max.x - r.min.x, r.max.y - r.min.y⟩

/-- Model of Rect::translate. -/
def Rect.translate (r : Rect) (t : Vec2) : Rect :=
  ⟨r.min.addVec t, r.max.addVec t⟩

/-- Model of epaint Rect::contains (inclusive on all four sides). -/
def Rect.contains (r : Rect) (p : Pos2) : Bool :=
  r.min.x ≤ p.x && p.x ≤ r.max.x && r.min.y ≤ p.y && p.y ≤ r.max.y

/-! ### Layout model (src/guee/src/layout.rs) -/

/-- Size hint of a widget on one axis (layout.rs SizeHint). -/
inductive SizeHint where
  | Shrink
  | Fill
deriving DecidableEq, Repr

/-- Model of SizeHint::or_force. -/
def SizeHint.or_force (s : SizeHint) (force_shrink : Bool) : SizeHint :=
  if force_shrink then .Shrink else s

/-- Per-axis size hints (layout.rs SizeHints). -/
structure SizeHints where
  width : SizeHint
  height : SizeHint
deriving DecidableEq, Repr

/-- Size hints plus growth weight (layout.rs LayoutHints). -/
structure LayoutHints where
  size_hints : SizeHints
  weight : Nat
deriving DecidableEq, Repr

/-- Model of the Default instance for LayoutHints: both axes Shrink, weight 1. -/
def LayoutHints.default : LayoutHints := ⟨⟨.Shrink, .Shrink⟩, 1⟩

/-- Model of LayoutHints::fill. -/
def LayoutHints.fill : LayoutHints := ⟨⟨.Fill, .Fill⟩, 1⟩

/-- Alignment on an axis (layout.rs Align). -/
inductive Align where
  | Start
  | End
  | Center
deriving DecidableEq, Repr

/-- Container axis (layout.rs Axis). -/
inductive Axis where
  | Vertical
  | Horizontal
deriving DecidableEq, Repr

/-- Main-axis component of a vector (AxisDirections for Vec2). -/
def Vec2.main_dir (v : Vec2) (axis : Axis) : ℚ :=
  match axis with
  | .Vertical => v.y
  | .Horizontal => v.x

/-- Cross-axis component of a vector (AxisDirections for Vec2). -/
def Vec2.cross_dir (v : Vec2) (axis : Axis) : ℚ :=
  match axis with
  | .Vertical => v.x
  | .Horizontal => v.y

/-- Main-axis hint (AxisDirections for SizeHints). -/
def SizeHints.main_dir (s : SizeHints) (axis : Axis) : SizeHint :=
  match axis with
  | .Vertical => s.height
  | .Horizontal => s.width

/-- Cross-axis hint (AxisDirections for SizeHints). -/
def SizeHints.cross_dir (s : SizeHints) (axis : Axis) : SizeHint :=
  match axis with
  | .Vertical => s.width
  | .Horizontal => s.height

/-- Model of Axis::new_vec2: build a vector from main and cross components. -/
def Axis.new_vec2 (axis : Axis) (main cross : ℚ) : Vec2 :=
  match axis with
  | .Vertical => ⟨cross, main⟩
  | .Horizontal => ⟨main, cross⟩

/-- Model of Axis::vec2_add_to_main. -/
def Axis.vec2_add_to_main (axis : Axis) (v : Vec2) (delta : ℚ) : Vec2 :=
  match axis with
  | .Vertical => ⟨v.x, v.y + delta⟩
  | .Horizontal => ⟨v.x + delta, v.y⟩

/-- A widget identifier; widget_id.rs is not part of the source snapshot, so
per the spec a WidgetId is an opaque hashable value modelled as a natural. -/
abbrev WidgetId := Nat

/-- A layout node (layout.rs Layout): parent-relative bounds, the originating
widget id, and the ordered child layouts. -/
structure Layout where
  bounds : Rect
  widget_id : WidgetId
  children : List Layout

/-- Model of Layout::with_children. -/
def Layout.with_children (widget_id : WidgetId) (size : Vec2)
    (children : List Layout) : Layout :=
  ⟨Rect.from_min_size Pos2.ZERO size, widget_id, children⟩

/-- Model of Layout::leaf. -/
def Layout.leaf (widget_id : WidgetId) (size : Vec2) : Layout :=
  ⟨Rect.from_min_size Pos2.ZERO size, widget_id, []⟩

/-- Model of Layout::translate (bounds only; children stay parent-relative). -/
def Layout.translate (l : Layout) (t : Vec2) : Layout :=
  { l with bounds := l.bounds.translate t }

/-- Model of Layout::translated. -/
def Layout.translated (l : Layout) (t : Vec2) : Layout := l.translate t

/-- Model of Layout::clear_translation. -/
def Layout.clear_translation (l : Layout) : Layout :=
  l.translated (l.bounds.min.to_vec2.neg)

/-- Model of Layout::translate_cross. -/
def Layout.translate_cross (l : Layout) (axis : Axis) (d : ℚ) : Layout :=
  match axis with
  | .Vertical => l.translate ⟨d, 0⟩
  | .Horizontal => l.translate ⟨0, d⟩

/-- Model of Layout::translate_main. -/
def Layout.translate_main (l : Layout) (axis : Axis) (d : ℚ) : Layout :=
  match axis with
  | .Vertical => l.translate ⟨0, d⟩
  | .Horizontal => l.translate ⟨d, 0⟩

/-! ### A model child widget: the Spacer leaf (base_widgets/spacer.rs).
Its layout takes its fixed minimum size on a Shrink axis and all offered
space on a Fill axis, which is exactly how the spec characterises a child of
the box layout: a pair of hints plus a natural size. -/

/-- Model of the Spacer widget: fixed minimum size plus layout hints. -/
structure Spacer where
  min_size : Vec2
  layout_hints : LayoutHints
deriving DecidableEq, Repr

/-- Model of Spacer layout: Shrink axes take min_size, Fill axes take all
available space, both folded through force_shrink. -/
def Spacer.layout (s : Spacer) (parent_id : WidgetId) (available : Vec2)
    (force_shrink : Bool) : Layout :=
  let widget_id := parent_id
  let width := match s.layout_hints.size_hints.width.or_force force_shrink with
    | .Shrink => s.min_size.x
    | .Fill => available.x
  let height := match s.layout_hints.size_hints.height.or_force force_shrink with
    | .Shrink => s.min_size.y
    | .Fill => available.y
  Layout.leaf widget_id ⟨width, height⟩

/-! ### Box container layout (base_widgets/box_container.rs) -/

/-- Model of the BoxContainer widget descriptor. The id generator is modelled
by the resolved widget id itself. -/
structure BoxContainer where
  id : WidgetId
  axis : Axis
  contents : List Spacer
  separation : ℚ
  layout_hints : LayoutHints
  main_align : Align
  cross_align : Align

/-- The real layout pass of BoxContainer::layout: walks the children
accumulating the main-axis offset, handing each child its available size
according to its (force-folded) main-axis hint, and placing the resulting
layout (translation cleared) at the accumulated offset.  Returns the child
layouts and the final accumulated offset (the content main size). -/
def BoxContainer.realPass (bc : BoxContainer) (widget_id : WidgetId)
    (available : Vec2) (force_shrink : Bool) (cross_space : ℚ)
    (wiggle_room : ℚ) (total_filled_weight : Nat) :
    List Spacer → ℚ → List Layout × ℚ
  | [], main_offset => ([], main_offset)
  | ch :: rest, main_offset =>
    let axis := bc.axis
    let c_available :=
      match (ch.layout_hints.size_hints.main_dir axis).or_force force_shrink with
      | .Shrink => axis.new_vec2 (available.main_dir axis - main_offset) cross_space
      | .Fill => axis.new_vec2
          (wiggle_room * ((ch.layout_hints.weight : ℚ) / (total_filled_weight : ℚ)))
          cross_space
    let axis_vec := match axis with
      | .Vertical => Vec2.Y
      | .Horizontal => Vec2.X
    let ch_layout :=
      ((ch.layout widget_id c_available force_shrink).clear_translation).translated
        (axis_vec.scale main_offset)
    let next := bc.realPass widget_id available force_shrink cross_space
      wiggle_room total_filled_weight rest
      (main_offset + ch_layout.bounds.size.main_dir axis + bc.separation)
    (ch_layout :: next.1, next.2)

/-- Cross-axis alignment step of BoxContainer::layout for one child. -/
def BoxContainer.crossAlignChild (bc : BoxContainer) (force_shrink : Bool)
    (cross_space : ℚ) (ch : Spacer) (ch_layout : Layout) : Layout :=
  let axis := bc.axis
  match (ch.layout_hints.size_hints.cross_dir axis).or_force force_shrink with
  | .Shrink =>
    match bc.cross_align with
    | .Start => ch_layout
    | .End => ch_layout.translate_cross axis
        (cross_space - ch_layout.bounds.size.cross_dir axis)
    | .Center => ch_layout.translate_cross axis
        ((cross_space - ch_layout.bounds.size.cross_dir axis) * (1/2))
  | .Fill => ch_layout

/-- The measurement pass of BoxContainer::layout: every child laid out once
with force_shrink engaged. -/
def BoxContainer.shrink_child_layouts (bc : BoxContainer) (parent_id : WidgetId)
    (available : Vec2) : List Layout :=
  bc.contents.map (fun c => c.layout parent_id available true)

/-- The cross-axis extent of the box: all available cross space when the box
itself is (unforced) Fill on the cross axis, otherwise the maximum cross size
among the shrink-measured children. -/
def BoxContainer.cross_space (bc : BoxContainer) (parent_id : WidgetId)
    (available : Vec2) (force_shrink : Bool) : ℚ :=
  match (bc.layout_hints.size_hints.cross_dir bc.axis).or_force force_shrink with
  | .Shrink => (bc.shrink_child_layouts parent_id available).foldl
      (fun size_cross l => max size_cross (l.bounds.size.cross_dir bc.axis)) 0
  | .Fill => available.cross_dir bc.axis

/-- Total weight of the children that are (force-folded) Fill on the main
axis. -/
def BoxContainer.total_filled_weight (bc : BoxContainer) (force_shrink : Bool) : Nat :=
  bc.contents.foldl
    (fun acc c =>
      match (c.layout_hints.size_hints.main_dir bc.axis).or_force force_shrink with
      | .Shrink => acc
      | .Fill => acc + c.layout_hints.weight) 0

/-- Total measured main-axis size of the children that are (force-folded)
Shrink on the main axis. -/
def BoxContainer.total_shrink_space (bc : BoxContainer) (parent_id : WidgetId)
    (available : Vec2) (force_shrink : Bool) : ℚ :=
  (bc.contents.zip (bc.shrink_child_layouts parent_id available)).foldl
    (fun acc p =>
      match (p.1.layout_hints.size_hints.main_dir bc.axis).or_force force_shrink with
      | .Shrink => acc + p.2.bounds.size.main_dir bc.axis
      | .Fill => acc) (0 : ℚ)

/-- Number of children that are (force-folded) Fill on the main axis. -/
def BoxContainer.fill_child_count (bc : BoxContainer) (force_shrink : Bool) : Nat :=
  bc.contents.foldl
    (fun acc c =>
      match (c.layout_hints.size_hints.main_dir bc.axis).or_force force_shrink with
      | .Shrink => acc
      | .Fill => acc + 1) 0

/-- Total separation: one gap between each pair of adjacent children. -/
def BoxContainer.total_separation (bc : BoxContainer) : ℚ :=
  bc.separation * ((bc.contents.length - 1 : Nat) : ℚ)

/-- The space left for Fill children to share on the main axis. -/
def BoxContainer.wiggle_room (bc : BoxContainer) (parent_id : WidgetId)
    (available : Vec2) (force_shrink : Bool) : ℚ :=
  available.main_dir bc.axis
    - (bc.total_shrink_space parent_id available force_shrink + bc.total_separation)

/-- The main-axis alignment offset, applied only when no child is Fill on the
main axis. -/
def BoxContainer.main_align_offset (bc : BoxContainer) (available : Vec2)
    (content_main_size : ℚ) : ℚ :=
  match bc.main_align with
  | .Start => 0
  | .End => available.main_dir bc.axis - content_main_size
  | .Center => (available.main_dir bc.axis - content_main_size) * (1/2)

/-- Model of BoxContainer::layout, the box layout algorithm: measurement pass
with force_shrink engaged, cross-space determination, fill-weight bookkeeping,
real layout pass, cross-axis alignment, main-axis alignment (only when no
child fills the main axis), and the final container size taken from the last
child trailing edge. -/
def BoxContainer.layout (bc : BoxContainer) (parent_id : WidgetId)
    (available : Vec2) (force_shrink : Bool) : Layout :=
  let widget_id := bc.id
  if bc.contents = [] then Layout.leaf widget_id Vec2.ZERO else
  let axis := bc.axis
  let cross_space := bc.cross_space parent_id available force_shrink
  let pass := bc.realPass widget_id available force_shrink cross_space
    (bc.wiggle_room parent_id available force_shrink)
    (bc.total_filled_weight force_shrink) bc.contents 0
  let children := (bc.contents.zip pass.1).map
    (fun p => bc.crossAlignChild force_shrink cross_space p.1 p.2)
  let content_main_size := pass.2
  let children :=
    if bc.fill_child_count force_shrink = 0 then
      children.map (fun ch_layout =>
        ch_layout.translate_main axis (bc.main_align_offset available content_main_size))
    else children
  Layout.with_children widget_id
    (axis.new_vec2
      ((children.getLast?.map (fun x => x.bounds.max.to_vec2.main_dir axis)).getD 0)
      cross_space)
    children

end Guee

namespace Guee

/-! ### Basic geometry lemmas -/

@[simp]
theorem Rect.size_translate (r : Rect) (t : Vec2) : (r.translate t).size = r.size := by
  simp [Rect.translate, Rect.size, Pos2.addVec]

@[simp]
theorem Axis.main_dir_new_vec2 (axis : Axis) (m c : ℚ) :
    (axis.new_vec2 m c).main_dir axis = m := by
  cases axis <;> simp [Axis.new_vec2, Vec2.main_dir]

@[simp]
theorem Axis.cross_dir_new_vec2 (axis : Axis) (m c : ℚ) :
    (axis.new_vec2 m c).cross_dir axis = c := by
  cases axis <;> simp [Axis.new_vec2, Vec2.cross_dir]

@[simp]
theorem Layout.bounds_translate (l : Layout) (t : Vec2) :
    (l.translate t).bounds = l.bounds.translate t := rfl

@[simp]
theorem Layout.size_translate_cross (l : Layout) (axis : Axis) (d : ℚ) :
    (l.translate_cross axis d).bounds.size = l.bounds.size := by
  cases axis <;> simp [Layout.translate_cross]

@[simp]
theorem Layout.size_translate_main (l : Layout) (axis : Axis) (d : ℚ) :
    (l.translate_main axis d).bounds.size = l.bounds.size := by
  cases axis <;> simp [Layout.translate_main]

theorem Layout.max_main_translate_cross (l : Layout) (axis : Axis) (d : ℚ) :
    (l.translate_cross axis d).bounds.max.to_vec2.main_dir axis
      = l.bounds.max.to_vec2.main_dir axis := by
  cases axis <;>
    simp [Layout.translate_cross, Layout.translate, Rect.translate, Pos2.addVec,
      Pos2.to_vec2, Vec2.main_dir]

theorem Layout.max_main_translate_main (l : Layout) (axis : Axis) (d : ℚ) :
    (l.translate_main axis d).bounds.max.to_vec2.main_dir axis
      = l.bounds.max.to_vec2.main_dir axis + d := by
  cases axis <;>
    simp [Layout.translate_main, Layout.translate, Rect.translate, Pos2.addVec,
      Pos2.to_vec2, Vec2.main_dir]

/-! ### Per-child facts about the box container passes -/

/-- The main-axis extent a Spacer child ends up with in the real layout pass:
its natural size when (force-folded) Shrink, its weight-proportional share of
the wiggle room when Fill. -/
def Spacer.mainExtent (axis : Axis) (force_shrink : Bool) (wiggle_room : ℚ)
    (total_filled_weight : Nat) (c : Spacer) : ℚ :=
  match (c.layout_hints.size_hints.main_dir axis).or_force force_shrink with
  | .Shrink => c.min_size.main_dir axis
  | .Fill => wiggle_room * ((c.layout_hints.weight : ℚ) / (total_filled_weight : ℚ))

/-- A force-shrunk Spacer measures at exactly its minimum size. -/
theorem Spacer.layout_force_shrink_size (s : Spacer) (pid : WidgetId) (avail : Vec2) :
    (s.layout pid avail true).bounds.size = s.min_size := by
  simp [Spacer.layout, SizeHint.or_force, Layout.leaf, Rect.from_min_size, Rect.size,
    Pos2.addVec, Pos2.ZERO]

end Guee

namespace Guee

/-- Bounds of one placed child of the real pass: a Spacer laid out at the
accumulated offset occupies its hint-determined main extent starting exactly
at that offset. -/
theorem Spacer.placed_bounds (ch : Spacer) (axis : Axis) (wid : WidgetId)
    (fs : Bool) (M cs o : ℚ) :
    (((ch.layout wid (axis.new_vec2 M cs) fs).clear_translation).translated
        ((match axis with | .Vertical => Vec2.Y | .Horizontal => Vec2.X).scale o)).bounds.size.main_dir axis
      = (match (ch.layout_hints.size_hints.main_dir axis).or_force fs with
         | .Shrink => ch.min_size.main_dir axis
         | .Fill => M)
    ∧ (((ch.layout wid (axis.new_vec2 M cs) fs).clear_translation).translated
        ((match axis with | .Vertical => Vec2.Y | .Horizontal => Vec2.X).scale o)).bounds.min.to_vec2.main_dir axis
      = o
    ∧ (((ch.layout wid (axis.new_vec2 M cs) fs).clear_translation).translated
        ((match axis with | .Vertical => Vec2.Y | .Horizontal => Vec2.X).scale o)).bounds.max.to_vec2.main_dir axis
      = o + (match (ch.layout_hints.size_hints.main_dir axis).or_force fs with
         | .Shrink => ch.min_size.main_dir axis
         | .Fill => M) := by
  cases axis <;>
    rcases hw : ch.layout_hints.size_hints.width.or_force fs <;>
    rcases hh : ch.layout_hints.size_hints.height.or_force fs <;>
      simp [Spacer.layout, hw, hh, Layout.clear_translation, Layout.translated,
        Layout.translate, Layout.leaf, Rect.from_min_size, Rect.translate, Rect.size,
        Pos2.addVec, Pos2.ZERO, Pos2.to_vec2, Vec2.neg, Vec2.scale, Vec2.X, Vec2.Y,
        Vec2.main_dir, Vec2.cross_dir, SizeHints.main_dir, SizeHints.cross_dir,
        Axis.new_vec2] <;> ring_nf

end Guee

namespace Guee

/-- The real pass produces exactly one layout per child. -/
theorem BoxContainer.realPass_length (bc : BoxContainer) (wid : WidgetId)
    (avail : Vec2) (fs : Bool) (cs wr : ℚ) (tw : Nat) :
    ∀ (contents : List Spacer) (o : ℚ),
      (bc.realPass wid avail fs cs wr tw contents o).1.length = contents.length := by
  intro contents
  induction contents with
  | nil => intro o; simp [BoxContainer.realPass]
  | cons c rest ih => intro o; simp [BoxContainer.realPass, ih]

/-- Each child layout of the real pass occupies exactly its mainExtent on the
main axis. -/
theorem BoxContainer.realPass_sizes (bc : BoxContainer) (wid : WidgetId)
    (avail : Vec2) (fs : Bool) (cs wr : ℚ) (tw : Nat) :
    ∀ (contents : List Spacer) (o : ℚ),
      (bc.realPass wid avail fs cs wr tw contents o).1.map
          (fun l => l.bounds.size.main_dir bc.axis)
        = contents.map (Spacer.mainExtent bc.axis fs wr tw) := by
  intro contents
  induction contents with
  | nil => intro o; simp [BoxContainer.realPass]
  | cons c rest ih =>
    intro o
    rcases hm : (c.layout_hints.size_hints.main_dir bc.axis).or_force fs with _ | _
    case Shrink =>
      have hpb := (Spacer.placed_bounds c bc.axis wid fs
        (avail.main_dir bc.axis - o) cs o).1
      rw [hm] at hpb
      simp [BoxContainer.realPass, hm, Spacer.mainExtent, ih, hpb]
    case Fill =>
      have hpb := (Spacer.placed_bounds c bc.axis wid fs
        (wr * ((c.layout_hints.weight : ℚ) / (tw : ℚ))) cs o).1
      rw [hm] at hpb
      simp [BoxContainer.realPass, hm, Spacer.mainExtent, ih, hpb]

end Guee

namespace Guee

/-- The accumulated offset returned by the real pass: the starting offset plus
every child mainExtent plus one separation per child (including a trailing
separation after the last child). -/
theorem BoxContainer.realPass_snd (bc : BoxContainer) (wid : WidgetId)
    (avail : Vec2) (fs : Bool) (cs wr : ℚ) (tw : Nat) :
    ∀ (contents : List Spacer) (o : ℚ),
      (bc.realPass wid avail fs cs wr tw contents o).2
        = o + (contents.map (Spacer.mainExtent bc.axis fs wr tw)).sum
            + contents.length * bc.separation := by
  intro contents
  induction contents with
  | nil => intro o; simp [BoxContainer.realPass]
  | cons c rest ih =>
    intro o
    rcases hm : (c.layout_hints.size_hints.main_dir bc.axis).or_force fs with _ | _
    case Shrink =>
      have hpb := (Spacer.placed_bounds c bc.axis wid fs
        (avail.main_dir bc.axis - o) cs o).1
      rw [hm] at hpb
      simp [BoxContainer.realPass, hm, Spacer.mainExtent, ih, hpb]
      ring
    case Fill =>
      have hpb := (Spacer.placed_bounds c bc.axis wid fs
        (wr * ((c.layout_hints.weight : ℚ) / (tw : ℚ))) cs o).1
      rw [hm] at hpb
      simp [BoxContainer.realPass, hm, Spacer.mainExtent, ih, hpb]
      ring

/-- The list of trailing main-axis edges the real pass produces, one per
child: each child ends at its starting offset plus its mainExtent, and the
next child starts one separation later. -/
def BoxContainer.mainEdges (bc : BoxContainer) (fs : Bool) (wr : ℚ) (tw : Nat) :
    List Spacer → ℚ → List ℚ
  | [], _ => []
  | c :: rest, o =>
    (o + Spacer.mainExtent bc.axis fs wr tw c)
      :: bc.mainEdges fs wr tw rest (o + Spacer.mainExtent bc.axis fs wr tw c + bc.separation)

/-- The real pass children have exactly the trailing edges of mainEdges. -/
theorem BoxContainer.realPass_maxes (bc : BoxContainer) (wid : WidgetId)
    (avail : Vec2) (fs : Bool) (cs wr : ℚ) (tw : Nat) :
    ∀ (contents : List Spacer) (o : ℚ),
      (bc.realPass wid avail fs cs wr tw contents o).1.map
          (fun l => l.bounds.max.to_vec2.main_dir bc.axis)
        = bc.mainEdges fs wr tw contents o := by
  intro contents
  induction contents with
  | nil => intro o; simp [BoxContainer.realPass, BoxContainer.mainEdges]
  | cons c rest ih =>
    intro o
    rcases hm : (c.layout_hints.size_hints.main_dir bc.axis).or_force fs with _ | _
    case Shrink =>
      have hpb := Spacer.placed_bounds c bc.axis wid fs
        (avail.main_dir bc.axis - o) cs o
      rw [hm] at hpb
      simp [BoxContainer.realPass, BoxContainer.mainEdges, hm, Spacer.mainExtent,
        ih, hpb.1, hpb.2.2]
    case Fill =>
      have hpb := Spacer.placed_bounds c bc.axis wid fs
        (wr * ((c.layout_hints.weight : ℚ) / (tw : ℚ))) cs o
      rw [hm] at hpb
      simp [BoxContainer.realPass, BoxContainer.mainEdges, hm, Spacer.mainExtent,
        ih, hpb.1, hpb.2.2]

/-- The last trailing edge: all extents plus one separation per gap. -/
theorem BoxContainer.mainEdges_getLast (bc : BoxContainer) (fs : Bool) (wr : ℚ)
    (tw : Nat) :
    ∀ (contents : List Spacer) (o : ℚ), contents ≠ [] →
      (bc.mainEdges fs wr tw contents o).getLast?
        = some (o + (contents.map (Spacer.mainExtent bc.axis fs wr tw)).sum
            + (contents.length - 1 : Nat) * bc.separation) := by
  intro contents
  induction contents with
  | nil => intro o h; exact absurd rfl h
  | cons c rest ih =>
    intro o _
    rcases rest with _ | ⟨r, rs⟩
    case nil => simp [BoxContainer.mainEdges]
    case cons =>
      have hr := ih (o + Spacer.mainExtent bc.axis fs wr tw c + bc.separation) (by simp)
      simp only [BoxContainer.mainEdges] at hr ⊢
      rw [List.getLast?_cons_cons, hr]
      congr 1
      simp only [List.length_cons, Nat.add_sub_cancel, List.map_cons, List.sum_cons]
      push_cast
      ring

end Guee

namespace Guee

/-- A left fold that adds a per-element contribution computes the sum of the
contributions. -/
theorem foldl_add_of_step {α M : Type} [AddCommMonoid M] (step : M → α → M)
    (contrib : α → M) (h : ∀ acc c, step acc c = acc + contrib c) :
    ∀ (l : List α) (a : M), l.foldl step a = a + (l.map contrib).sum := by
  intro l
  induction l with
  | nil => intro a; simp
  | cons c rest ih => intro a; simp [h, ih, add_assoc]

/-- Zipping a list with its own map pairs every element with its image. -/
theorem zip_self_map {α β : Type} (g : α → β) :
    ∀ l : List α, l.zip (l.map g) = l.map (fun c => (c, g c)) := by
  intro l
  induction l with
  | nil => rfl
  | cons c rest ih => simp [ih]

/-- The total filled weight is the sum of the weights of the Fill children. -/
theorem BoxContainer.total_filled_weight_eq (bc : BoxContainer) (fs : Bool) :
    bc.total_filled_weight fs
      = (bc.contents.map (fun c =>
          match (c.layout_hints.size_hints.main_dir bc.axis).or_force fs with
          | .Shrink => 0
          | .Fill => c.layout_hints.weight)).sum := by
  have := foldl_add_of_step
    (fun acc c =>
      match (c.layout_hints.size_hints.main_dir bc.axis).or_force fs with
      | .Shrink => acc
      | .Fill => acc + c.layout_hints.weight)
    (fun c =>
      match (c.layout_hints.size_hints.main_dir bc.axis).or_force fs with
      | .Shrink => 0
      | .Fill => c.layout_hints.weight)
    (by intro acc c
        rcases h : (c.layout_hints.size_hints.main_dir bc.axis).or_force fs <;> simp [h])
    bc.contents 0
  simpa [BoxContainer.total_filled_weight] using this

/-- The fill child count is the number of Fill children. -/
theorem BoxContainer.fill_child_count_eq (bc : BoxContainer) (fs : Bool) :
    bc.fill_child_count fs
      = (bc.contents.map (fun c =>
          match (c.layout_hints.size_hints.main_dir bc.axis).or_force fs with
          | .Shrink => 0
          | .Fill => 1)).sum := by
  have := foldl_add_of_step
    (fun acc c =>
      match (c.layout_hints.size_hints.main_dir bc.axis).or_force fs with
      | .Shrink => acc
      | .Fill => acc + 1)
    (fun c =>
      match (c.layout_hints.size_hints.main_dir bc.axis).or_force fs with
      | .Shrink => 0
      | .Fill => (1 : Nat))
    (by intro acc c
        rcases h : (c.layout_hints.size_hints.main_dir bc.axis).or_force fs <;> simp [h])
    bc.contents 0
  simpa [BoxContainer.fill_child_count] using this

/-- The total shrink space is the sum of the natural main-axis sizes of the
Shrink children (a force-shrunk Spacer measures at its minimum size). -/
theorem BoxContainer.total_shrink_space_eq (bc : BoxContainer) (pid : WidgetId)
    (avail : Vec2) (fs : Bool) :
    bc.total_shrink_space pid avail fs
      = (bc.contents.map (fun c =>
          match (c.layout_hints.size_hints.main_dir bc.axis).or_force fs with
          | .Shrink => c.min_size.main_dir bc.axis
          | .Fill => 0)).sum := by
  have hfold := foldl_add_of_step
    (fun (acc : ℚ) (p : Spacer × Layout) =>
      match (p.1.layout_hints.size_hints.main_dir bc.axis).or_force fs with
      | .Shrink => acc + p.2.bounds.size.main_dir bc.axis
      | .Fill => acc)
    (fun p =>
      match (p.1.layout_hints.size_hints.main_dir bc.axis).or_force fs with
      | .Shrink => p.2.bounds.size.main_dir bc.axis
      | .Fill => 0)
    (by intro acc c
        rcases h : (c.1.layout_hints.size_hints.main_dir bc.axis).or_force fs <;> simp [h])
    (bc.contents.zip (bc.shrink_child_layouts pid avail)) 0
  rw [BoxContainer.total_shrink_space, hfold, BoxContainer.shrink_child_layouts,
    zip_self_map, List.map_map]
  simp only [zero_add]
  congr 1
  apply List.map_congr_left
  intro c _
  simp only [Function.comp]
  rcases (c.layout_hints.size_hints.main_dir bc.axis).or_force fs <;>
    simp [Spacer.layout_force_shrink_size]

end Guee

namespace Guee

@[simp]
theorem Rect.size_from_min_size (p : Pos2) (v : Vec2) :
    (Rect.from_min_size p v).size = v := by
  simp [Rect.from_min_size, Rect.size, Pos2.addVec]

/-- Cross-axis alignment never changes a child size. -/
theorem BoxContainer.crossAlignChild_size (bc : BoxContainer) (fs : Bool)
    (cs : ℚ) (c : Spacer) (l : Layout) :
    (bc.crossAlignChild fs cs c l).bounds.size = l.bounds.size := by
  rcases h : (c.layout_hints.size_hints.cross_dir bc.axis).or_force fs <;>
    rcases ha : bc.cross_align <;>
      simp [BoxContainer.crossAlignChild, h, ha]

/-- Cross-axis alignment never changes a child trailing main-axis edge. -/
theorem BoxContainer.crossAlignChild_max_main (bc : BoxContainer) (fs : Bool)
    (cs : ℚ) (c : Spacer) (l : Layout) :
    (bc.crossAlignChild fs cs c l).bounds.max.to_vec2.main_dir bc.axis
      = l.bounds.max.to_vec2.main_dir bc.axis := by
  rcases h : (c.layout_hints.size_hints.cross_dir bc.axis).or_force fs <;>
    rcases ha : bc.cross_align <;>
      simp [BoxContainer.crossAlignChild, h, ha, Layout.max_main_translate_cross]

/-- Mapping an observation invariant under a zipped transformation ignores the
transformation. -/
theorem zip_map_snd_invariant {α β γ : Type} (F : α → β → β) (f : β → γ)
    (hf : ∀ a b, f (F a b) = f b) :
    ∀ (l1 : List α) (l2 : List β), l1.length = l2.length →
      ((l1.zip l2).map (fun p => F p.1 p.2)).map f = l2.map f := by
  intro l1
  induction l1 with
  | nil =>
    intro l2 hlen
    rcases l2 with _ | ⟨b, bs⟩
    case nil => simp
    case cons => simp at hlen
  | cons a as ih =>
    intro l2 hlen
    rcases l2 with _ | ⟨b, bs⟩
    case nil => simp at hlen
    case cons =>
      simp only [List.length_cons, Nat.add_right_cancel_iff] at hlen
      simp [hf, ih bs hlen]

/-- Main-axis translation of every child leaves all main-axis sizes alone. -/
theorem map_translate_main_sizes (axis : Axis) (d : ℚ) :
    ∀ l : List Layout,
      (l.map (fun x => x.translate_main axis d)).map
          (fun x => x.bounds.size.main_dir axis)
        = l.map (fun x => x.bounds.size.main_dir axis) := by
  intro l
  induction l with
  | nil => rfl
  | cons a as ih => simp [ih]

/-- Main-axis translation of every child shifts all trailing edges by the
offset. -/
theorem map_translate_main_maxes (axis : Axis) (d : ℚ) :
    ∀ l : List Layout,
      (l.map (fun x => x.translate_main axis d)).map
          (fun x => x.bounds.max.to_vec2.main_dir axis)
        = (l.map (fun x => x.bounds.max.to_vec2.main_dir axis)).map (fun m => m + d) := by
  intro l
  induction l with
  | nil => rfl
  | cons a as ih => simp [ih, Layout.max_main_translate_main]

/-- The main-axis sizes of the final children of the box layout are exactly
the mainExtent values of the declared children. -/
theorem BoxContainer.layout_children_sizes (bc : BoxContainer) (pid : WidgetId)
    (avail : Vec2) (fs : Bool) (h : bc.contents ≠ []) :
    (bc.layout pid avail fs).children.map (fun l => l.bounds.size.main_dir bc.axis)
      = bc.contents.map (Spacer.mainExtent bc.axis fs
          (bc.wiggle_room pid avail fs) (bc.total_filled_weight fs)) := by
  have hzip := zip_map_snd_invariant
    (bc.crossAlignChild fs (bc.cross_space pid avail fs))
    (fun l => l.bounds.size.main_dir bc.axis)
    (by intro a b; simp only [BoxContainer.crossAlignChild_size])
    bc.contents
    (bc.realPass bc.id avail fs (bc.cross_space pid avail fs)
      (bc.wiggle_room pid avail fs) (bc.total_filled_weight fs) bc.contents 0).1
    (by rw [BoxContainer.realPass_length])
  by_cases hcount : bc.fill_child_count fs = 0
  case pos =>
    simp only [BoxContainer.layout, if_neg h, hcount, if_pos, Layout.with_children]
    rw [map_translate_main_sizes, hzip, BoxContainer.realPass_sizes]
  case neg =>
    simp only [BoxContainer.layout, if_neg h, hcount, if_false, Layout.with_children]
    rw [hzip, BoxContainer.realPass_sizes]

/-- The trailing main-axis edges of the final children of the box layout:
the mainEdges of the declared children, globally shifted by the main-axis
alignment offset when no child fills the main axis. -/
theorem BoxContainer.layout_children_maxes (bc : BoxContainer) (pid : WidgetId)
    (avail : Vec2) (fs : Bool) (h : bc.contents ≠ []) :
    (bc.layout pid avail fs).children.map
        (fun l => l.bounds.max.to_vec2.main_dir bc.axis)
      = (bc.mainEdges fs (bc.wiggle_room pid avail fs)
          (bc.total_filled_weight fs) bc.contents 0).map
          (fun m => m +
            (if bc.fill_child_count fs = 0 then
              bc.main_align_offset avail
                (bc.realPass bc.id avail fs (bc.cross_space pid avail fs)
                  (bc.wiggle_room pid avail fs) (bc.total_filled_weight fs)
                  bc.contents 0).2
             else 0)) := by
  have hzip := zip_map_snd_invariant
    (bc.crossAlignChild fs (bc.cross_space pid avail fs))
    (fun l => l.bounds.max.to_vec2.main_dir bc.axis)
    (by intro a b; simp only [BoxContainer.crossAlignChild_max_main])
    bc.contents
    (bc.realPass bc.id avail fs (bc.cross_space pid avail fs)
      (bc.wiggle_room pid avail fs) (bc.total_filled_weight fs) bc.contents 0).1
    (by rw [BoxContainer.realPass_length])
  by_cases hcount : bc.fill_child_count fs = 0
  case pos =>
    simp only [BoxContainer.layout, if_neg h, hcount, if_pos, Layout.with_children]
    rw [map_translate_main_maxes, hzip, BoxContainer.realPass_maxes]
  case neg =>
    simp only [BoxContainer.layout, if_neg h, hcount, if_false, Layout.with_children]
    rw [hzip, BoxContainer.realPass_maxes]
    simp

end Guee

namespace Guee

@[simp]
theorem SizeHint.shrink_or_force (fs : Bool) :
    SizeHint.Shrink.or_force fs = SizeHint.Shrink := by
  cases fs <;> rfl

/-- The container main size: the extents of the children plus one separation
per gap, plus the global alignment offset when no child fills the main axis. -/
theorem BoxContainer.layout_main_size (bc : BoxContainer) (pid : WidgetId)
    (avail : Vec2) (fs : Bool) (h : bc.contents ≠ []) :
    (bc.layout pid avail fs).bounds.size.main_dir bc.axis
      = (bc.contents.map (Spacer.mainExtent bc.axis fs
            (bc.wiggle_room pid avail fs) (bc.total_filled_weight fs))).sum
        + ((bc.contents.length - 1 : Nat) : ℚ) * bc.separation
        + (if bc.fill_child_count fs = 0 then
            bc.main_align_offset avail
              ((bc.contents.map (Spacer.mainExtent bc.axis fs
                  (bc.wiggle_room pid avail fs) (bc.total_filled_weight fs))).sum
                + bc.contents.length * bc.separation)
           else 0) := by
  have hsize : (bc.layout pid avail fs).bounds.size.main_dir bc.axis
      = (((bc.layout pid avail fs).children.map
          (fun l => l.bounds.max.to_vec2.main_dir bc.axis)).getLast?).getD 0 := by
    simp only [BoxContainer.layout, if_neg h, Layout.with_children, List.getLast?_map]
    simp
  rw [hsize, BoxContainer.layout_children_maxes bc pid avail fs h,
    List.getLast?_map, BoxContainer.mainEdges_getLast bc fs _ _ bc.contents 0 h,
    BoxContainer.realPass_snd]
  simp

/-- The sum of the child extents splits into the shrink part and the
weight-proportional fill part. -/
theorem sum_mainExtent (axis : Axis) (fs : Bool) (wr : ℚ) (tw : Nat) :
    ∀ l : List Spacer,
      (l.map (Spacer.mainExtent axis fs wr tw)).sum
        = (l.map (fun c =>
            match (c.layout_hints.size_hints.main_dir axis).or_force fs with
            | .Shrink => c.min_size.main_dir axis
            | .Fill => 0)).sum
          + wr * ((l.map (fun c =>
              match (c.layout_hints.size_hints.main_dir axis).or_force fs with
              | .Shrink => (0 : ℚ)
              | .Fill => (c.layout_hints.weight : ℚ))).sum / (tw : ℚ)) := by
  intro l
  induction l with
  | nil => simp
  | cons c rest ih =>
    rcases hm : (c.layout_hints.size_hints.main_dir axis).or_force fs <;>
      simp only [List.map_cons, List.sum_cons, Spacer.mainExtent, hm, ih] <;>
      ring

end Guee

namespace Guee

/-! ### Claim C6: all-shrink container main size -/

/-- For all-Shrink children the fill child count is zero. -/
theorem BoxContainer.fill_child_count_zero (bc : BoxContainer) (fs : Bool)
    (hshrink : ∀ c ∈ bc.contents,
      c.layout_hints.size_hints.main_dir bc.axis = SizeHint.Shrink) :
    bc.fill_child_count fs = 0 := by
  rw [BoxContainer.fill_child_count_eq]
  have : bc.contents.map (fun c =>
      match (c.layout_hints.size_hints.main_dir bc.axis).or_force fs with
      | .Shrink => 0
      | .Fill => 1) = bc.contents.map (fun _ => (0 : Nat)) := by
    apply List.map_congr_left
    intro c hc
    rw [hshrink c hc]
    simp
  rw [this]
  simp

/-- Claim C6: for every nonempty list of children all Shrink-hinted on the
main axis, under the default Start main alignment, the container reported
main-axis size is exactly the sum of the natural child sizes plus one
separation per gap, for any available size and force flag. -/
theorem c6_shrink_children_container_main_size
    (bc : BoxContainer) (pid : WidgetId) (avail : Vec2) (fs : Bool)
    (hne : bc.contents ≠ [])
    (hshrink : ∀ c ∈ bc.contents,
      c.layout_hints.size_hints.main_dir bc.axis = SizeHint.Shrink)
    (halign : bc.main_align = Align.Start) :
    (bc.layout pid avail fs).bounds.size.main_dir bc.axis
      = (bc.contents.map (fun c => c.min_size.main_dir bc.axis)).sum
        + ((bc.contents.length - 1 : Nat) : ℚ) * bc.separation := by
  have hcount := BoxContainer.fill_child_count_zero bc fs hshrink
  have hext : bc.contents.map (Spacer.mainExtent bc.axis fs
      (bc.wiggle_room pid avail fs) (bc.total_filled_weight fs))
      = bc.contents.map (fun c => c.min_size.main_dir bc.axis) := by
    apply List.map_congr_left
    intro c hc
    simp [Spacer.mainExtent, hshrink c hc]
  rw [BoxContainer.layout_main_size bc pid avail fs hne, hcount, hext]
  simp [BoxContainer.main_align_offset, halign]

/-- A concrete all-Shrink vertical box for the C6 witness. -/
def twoShrinkBox : BoxContainer :=
  { id := 1, axis := .Vertical
    contents := [⟨⟨0, 10⟩, LayoutHints.default⟩, ⟨⟨0, 20⟩, LayoutHints.default⟩]
    separation := 5, layout_hints := LayoutHints.default
    main_align := .Start, cross_align := .Start }

/-- Witness for C6 at a concrete two-child box. -/
theorem c6_shrink_children_container_main_size_witness :
    twoShrinkBox.contents ≠ []
    ∧ (twoShrinkBox.layout 0 ⟨100, 200⟩ false).bounds.size.main_dir twoShrinkBox.axis
      = (twoShrinkBox.contents.map
          (fun c => c.min_size.main_dir twoShrinkBox.axis)).sum
        + ((twoShrinkBox.contents.length - 1 : Nat) : ℚ) * twoShrinkBox.separation :=
  ⟨by simp [twoShrinkBox],
   c6_shrink_children_container_main_size twoShrinkBox 0 ⟨100, 200⟩ false
     (by simp [twoShrinkBox])
     (by intro c hc
         simp only [twoShrinkBox, List.mem_cons, List.mem_singleton] at hc
         rcases hc with h | h | h <;> first
           | (subst h; rfl)
           | exact absurd h (by simp))
     rfl⟩

end Guee

namespace Guee

/-! ### Claim C4: fill children and the available main-axis size -/

/-- Claim C4: for every nonempty child list with at least one main-axis Fill
child and positive total fill weight, the sum of the children resulting
main-axis extents plus the separation gaps equals (hence never exceeds) the
available main-axis size. -/
theorem c4_fill_children_respect_available
    (bc : BoxContainer) (pid : WidgetId) (avail : Vec2)
    (hne : bc.contents ≠ [])
    (_hfill : ∃ c ∈ bc.contents,
      c.layout_hints.size_hints.main_dir bc.axis = SizeHint.Fill)
    (hw : 0 < bc.total_filled_weight false) :
    ((bc.layout pid avail false).children.map
        (fun l => l.bounds.size.main_dir bc.axis)).sum
      + ((bc.contents.length - 1 : Nat) : ℚ) * bc.separation
      ≤ avail.main_dir bc.axis := by
  rw [BoxContainer.layout_children_sizes bc pid avail false hne,
    sum_mainExtent]
  have hwq : ((bc.total_filled_weight false : Nat) : ℚ)
      = (bc.contents.map (fun c =>
          match (c.layout_hints.size_hints.main_dir bc.axis).or_force false with
          | .Shrink => (0 : ℚ)
          | .Fill => (c.layout_hints.weight : ℚ))).sum := by
    rw [BoxContainer.total_filled_weight_eq, Nat.cast_list_sum, List.map_map]
    congr 1
    apply List.map_congr_left
    intro c _
    rcases h : (c.layout_hints.size_hints.main_dir bc.axis).or_force false <;>
      simp [h, Function.comp]
  have hne0 : ((bc.total_filled_weight false : Nat) : ℚ) ≠ 0 := by
    exact_mod_cast Nat.pos_iff_ne_zero.mp hw
  rw [← hwq, div_self hne0, mul_one]
  have hts := BoxContainer.total_shrink_space_eq bc pid avail false
  have hwr : bc.wiggle_room pid avail false
      = avail.main_dir bc.axis
        - ((bc.contents.map (fun c =>
            match (c.layout_hints.size_hints.main_dir bc.axis).or_force false with
            | .Shrink => c.min_size.main_dir bc.axis
            | .Fill => 0)).sum
          + bc.separation * ((bc.contents.length - 1 : Nat) : ℚ)) := by
    rw [BoxContainer.wiggle_room, hts, BoxContainer.total_separation]
  rw [hwr]
  apply le_of_eq
  ring

/-- A concrete box with one Shrink and one Fill child for the C4 witness. -/
def shrinkFillBox : BoxContainer :=
  { id := 1, axis := .Vertical
    contents := [⟨⟨0, 10⟩, LayoutHints.default⟩, ⟨⟨0, 0⟩, LayoutHints.fill⟩]
    separation := 5, layout_hints := LayoutHints.default
    main_align := .Start, cross_align := .Start }

/-- Witness for C4 at a concrete shrink-plus-fill box. -/
theorem c4_fill_children_respect_available_witness :
    shrinkFillBox.contents ≠ []
    ∧ (∃ c ∈ shrinkFillBox.contents,
        c.layout_hints.size_hints.main_dir shrinkFillBox.axis = SizeHint.Fill)
    ∧ 0 < shrinkFillBox.total_filled_weight false
    ∧ (((shrinkFillBox.layout 0 ⟨100, 200⟩ false).children.map
          (fun l => l.bounds.size.main_dir shrinkFillBox.axis)).sum
        + ((shrinkFillBox.contents.length - 1 : Nat) : ℚ) * shrinkFillBox.separation
        ≤ (⟨100, 200⟩ : Vec2).main_dir shrinkFillBox.axis) :=
  ⟨by simp [shrinkFillBox],
   ⟨⟨⟨0, 0⟩, LayoutHints.fill⟩, by simp [shrinkFillBox], rfl⟩,
   by norm_num [shrinkFillBox, BoxContainer.total_filled_weight, LayoutHints.fill,
     LayoutHints.default, SizeHints.main_dir, SizeHint.or_force],
   c4_fill_children_respect_available shrinkFillBox 0 ⟨100, 200⟩
     (by simp [shrinkFillBox])
     ⟨⟨⟨0, 0⟩, LayoutHints.fill⟩, by simp [shrinkFillBox], rfl⟩
     (by norm_num [shrinkFillBox, BoxContainer.total_filled_weight, LayoutHints.fill,
       LayoutHints.default, SizeHints.main_dir, SizeHint.or_force])⟩

end Guee

namespace Guee

/-! ### Claim C1: the vertical Center-aligned end-to-end scenario -/

/-- The spec scenario: a vertical box, three Shrink children of heights 20,
30 and 40, separation 5, main alignment Center. -/
def centerScenarioBox : BoxContainer :=
  { id := 1, axis := .Vertical
    contents := [⟨⟨0, 20⟩, LayoutHints.default⟩, ⟨⟨0, 30⟩, LayoutHints.default⟩,
      ⟨⟨0, 40⟩, LayoutHints.default⟩]
    separation := 5, layout_hints := LayoutHints.default
    main_align := .Center, cross_align := .Start }

/-- The scenario layout with 200 units of available height. -/
def centerScenarioLayout : Layout := centerScenarioBox.layout 0 ⟨100, 200⟩ false

/-- Claim C1, counterexample: the children are indeed placed at y offsets
47.5, 72.5 and 107.5, but the container reported main-axis size is not 100:
the accumulated content main size retains a trailing separation (105), the
centering offset is (200 - 105) / 2 = 47.5, and the reported size is the last
child trailing edge 107.5 + 40 = 147.5. -/
theorem c1_center_scenario_counterexample :
    centerScenarioLayout.children.map (fun c => c.bounds.min.y)
        = [47.5, 72.5, 107.5]
    ∧ centerScenarioLayout.bounds.size.y ≠ 100 := by
  constructor <;>
    norm_num [centerScenarioLayout, centerScenarioBox, BoxContainer.layout,
      BoxContainer.realPass, BoxContainer.crossAlignChild, BoxContainer.cross_space,
      BoxContainer.shrink_child_layouts, BoxContainer.total_filled_weight,
      BoxContainer.total_shrink_space, BoxContainer.fill_child_count,
      BoxContainer.total_separation, BoxContainer.wiggle_room,
      BoxContainer.main_align_offset, Spacer.layout, Layout.leaf,
      Layout.with_children, Layout.clear_translation, Layout.translated,
      Layout.translate, Layout.translate_main, Layout.translate_cross,
      Rect.from_min_size, Rect.size, Rect.translate, Pos2.addVec, Pos2.to_vec2,
      Pos2.ZERO, Vec2.ZERO, Vec2.X, Vec2.Y, Vec2.neg, Vec2.scale, Vec2.main_dir,
      Vec2.cross_dir, SizeHints.main_dir, SizeHints.cross_dir, SizeHint.or_force,
      Axis.new_vec2, LayoutHints.default, List.cons_ne_nil, reduceIte]

/-- Claim C1, amended: in the scenario the children are placed at y offsets
47.5, 72.5 and 107.5 relative to the container top, and the container
reported main-axis size is 147.5, the trailing edge of the last child after
the Center alignment shift. -/
theorem c1_center_scenario_layout :
    centerScenarioLayout.children.map (fun c => c.bounds.min.y)
        = [47.5, 72.5, 107.5]
    ∧ centerScenarioLayout.bounds.size.y = 147.5 := by
  constructor <;>
    norm_num [centerScenarioLayout, centerScenarioBox, BoxContainer.layout,
      BoxContainer.realPass, BoxContainer.crossAlignChild, BoxContainer.cross_space,
      BoxContainer.shrink_child_layouts, BoxContainer.total_filled_weight,
      BoxContainer.total_shrink_space, BoxContainer.fill_child_count,
      BoxContainer.total_separation, BoxContainer.wiggle_room,
      BoxContainer.main_align_offset, Spacer.layout, Layout.leaf,
      Layout.with_children, Layout.clear_translation, Layout.translated,
      Layout.translate, Layout.translate_main, Layout.translate_cross,
      Rect.from_min_size, Rect.size, Rect.translate, Pos2.addVec, Pos2.to_vec2,
      Pos2.ZERO, Vec2.ZERO, Vec2.X, Vec2.Y, Vec2.neg, Vec2.scale, Vec2.main_dir,
      Vec2.cross_dir, SizeHints.main_dir, SizeHints.cross_dir, SizeHint.or_force,
      Axis.new_vec2, LayoutHints.default, List.cons_ne_nil, reduceIte]

end Guee

namespace Guee

/-! ### Input state and the focus and drag arbiter
(src/guee/src/input.rs and src/guee/src/context.rs) -/

/-- Mouse buttons (input.rs MouseButton). -/
inductive MouseButton where
  | Primary
  | Secondary
  | Middle
  | Other (idx : Nat)
deriving DecidableEq, Repr

/-- Click-drag state machine per button (input.rs ClickDragState). -/
inductive ClickDragState where
  | Idle
  | Clicked (pos : Pos2)
  | DragJustStarted (pos : Pos2)
  | Dragged (pos : Pos2)
deriving DecidableEq, Repr

/-- Per-button input state (input.rs ButtonState). -/
structure ButtonState where
  down : Bool
  drag_state : ClickDragState
  just_pressed : Bool
  just_released : Bool
  just_clicked : Bool
deriving DecidableEq, Repr

/-- Model of the Default instance for ButtonState. -/
def ButtonState.default : ButtonState := ⟨false, .Idle, false, false, false⟩

/-- Map of buttons to button state (input.rs ButtonStateMap); the HashMap is
modelled as an association list with unique keys maintained by insertion. -/
structure ButtonStateMap where
  state : List (MouseButton × ButtonState)
deriving DecidableEq, Repr

/-- Association-list lookup standing for HashMap::get. -/
def ButtonStateMap.get? (m : ButtonStateMap) (button : MouseButton) :
    Option ButtonState :=
  (m.state.find? (fun p => p.1 = button)).map (fun p => p.2)

/-- Association-list insert standing for HashMap::insert (replaces the
existing binding, if any). -/
def assocInsert {α β : Type} [DecidableEq α] (k : α) (v : β) :
    List (α × β) → List (α × β)
  | [] => [(k, v)]
  | (k0, v0) :: rest =>
    if k0 = k then (k, v) :: rest else (k0, v0) :: assocInsert k v rest

/-- Model of ButtonStateMap::is_dragging: the drag start position when the
button is in one of the two dragging states. -/
def ButtonStateMap.is_dragging (m : ButtonStateMap) (button : MouseButton) :
    Option Pos2 :=
  (m.get? button).bind (fun x =>
    match x.drag_state with
    | .Idle => none
    | .Clicked _ => none
    | .DragJustStarted pos => some pos
    | .Dragged pos => some pos)

/-- Model of ButtonStateMap::on_mouse_pressed. -/
def ButtonStateMap.on_mouse_pressed (m : ButtonStateMap) (button : MouseButton)
    (cursor_pos : Pos2) : ButtonStateMap :=
  let entry := (m.get? button).getD ButtonState.default
  let entry := { entry with
    just_pressed := true
    down := true
    drag_state := .Clicked cursor_pos }
  ⟨assocInsert button entry m.state⟩

/-- Model of ButtonStateMap::on_mouse_released. -/
def ButtonStateMap.on_mouse_released (m : ButtonStateMap) (button : MouseButton) :
    ButtonStateMap :=
  let entry := (m.get? button).getD ButtonState.default
  let entry := { entry with just_released := true, down := false }
  let entry := match entry.drag_state with
    | .Clicked _ => { entry with just_clicked := true }
    | _ => entry
  let entry := { entry with drag_state := .Idle }
  ⟨assocInsert button entry m.state⟩

/-- Mouse state (input.rs MouseState). -/
structure MouseState where
  position : Pos2
  prev_position : Pos2
  button_state : ButtonStateMap
  ongoing_drag : ClickDragState

/-- Frame events (input.rs Event); key codes are modelled as naturals. -/
inductive Event where
  | MousePressed (button : MouseButton)
  | MouseReleased (button : MouseButton)
  | MouseWheel (delta : Vec2)
  | MouseMoved (pos : Pos2)
  | Text (ch : Char)
  | KeyPressed (code : Nat)
  | KeyReleased (code : Nat)

/-- Input state (input.rs InputState, modifiers omitted as unused by the
arbiter). -/
structure InputState where
  screen_size : Vec2
  mouse : MouseState
  ev_buffer : List Event

/-- Widget-facing input state (input.rs InputWidgetState): the focused widget
and the drag-claim holder.  The cursor_transform field is used by
Context::claim_drag_event but its declaration is not part of the source
snapshot; modelled from the spec as the transform applied to mouse
coordinates before hit testing. -/
structure InputWidgetState where
  focus : Option WidgetId
  drag : Option WidgetId
  cursor_transform : Pos2 → Pos2

/-- Model of Context::request_focus: unconditionally overwrites the focus. -/
def Context.request_focus (ws : InputWidgetState) (widget_id : WidgetId) :
    InputWidgetState :=
  { ws with focus := some widget_id }

/-- Model of Context::release_focus: clears the focus only when it currently
equals the given id. -/
def Context.release_focus (ws : InputWidgetState) (widget_id : WidgetId) :
    InputWidgetState :=
  match ws.focus with
  | some id => if id = widget_id then { ws with focus := none } else ws
  | none => ws

/-- Model of Context::get_focus. -/
def Context.get_focus (ws : InputWidgetState) : Option WidgetId := ws.focus

/-- Model of Context::is_focused. -/
def Context.is_focused (ws : InputWidgetState) (widget_id : WidgetId) : Bool :=
  (ws.focus.map (fun x => decide (widget_id = x))).getD false

/-- Model of Context::claim_drag_event: returns the bool the source returns
and the updated widget state. -/
def Context.claim_drag_event (input : InputState) (ws : InputWidgetState)
    (widget_id : WidgetId) (rect : Rect) (mouse_button : MouseButton) :
    Bool × InputWidgetState :=
  let drag := input.mouse.button_state.is_dragging mouse_button
  match ws.drag with
  | some drag_widget =>
    if drag_widget = widget_id then (drag.isSome, ws) else (false, ws)
  | none =>
    match drag with
    | some drag_pos =>
      let transformed_pos := ws.cursor_transform drag_pos
      if rect.contains transformed_pos then
        (true, { ws with drag := some widget_id })
      else (false, ws)
    | none => (false, ws)

/-- Model of the MouseInput arm of InputState::on_winit_event for a pressed
button. -/
def InputState.on_mouse_input_pressed (input : InputState)
    (ws : InputWidgetState) (button : MouseButton) :
    InputState × InputWidgetState :=
  ({ input with
      ev_buffer := input.ev_buffer ++ [Event.MousePressed button]
      mouse := { input.mouse with
        button_state :=
          input.mouse.button_state.on_mouse_pressed button input.mouse.position } },
   ws)

/-- Model of the MouseInput arm of InputState::on_winit_event for a released
button: the drag claim is cleared. -/
def InputState.on_mouse_input_released (input : InputState)
    (ws : InputWidgetState) (button : MouseButton) :
    InputState × InputWidgetState :=
  ({ input with
      ev_buffer := input.ev_buffer ++ [Event.MouseReleased button]
      mouse := { input.mouse with
        button_state := input.mouse.button_state.on_mouse_released button } },
   { ws with drag := none })

end Guee

namespace Guee

/-! ### Claim C9: focus request and release -/

/-- Claim C9: request_focus unconditionally overwrites the focused id, and
release_focus clears the focus exactly when the current focus equals the
given id, leaving it untouched otherwise. -/
theorem c9_focus_request_release (ws : InputWidgetState) (id : WidgetId) :
    (Context.request_focus ws id).focus = some id
    ∧ (Context.release_focus ws id).focus
        = (if ws.focus = some id then none else ws.focus) := by
  refine ⟨rfl, ?_⟩
  rcases h : ws.focus with _ | i
  case none => simp [Context.release_focus, h]
  case some =>
    by_cases hi : i = id
    case pos => simp [Context.release_focus, h, hi]
    case neg =>
      have : ¬ (some i = some id) := by simp [hi]
      simp [Context.release_focus, h, hi, this]

/-! ### Claim C5: drag claim mutual exclusion -/

/-- Run a sequence of claim_drag_event calls, threading the widget state. -/
def runClaims (input : InputState) (btn : MouseButton) :
    InputWidgetState → List (WidgetId × Rect) → InputWidgetState
  | ws, [] => ws
  | ws, (id, rect) :: rest =>
    runClaims input btn (Context.claim_drag_event input ws id rect btn).2 rest

/-- Run a sequence of claim_drag_event calls, recording which widget claimed
and what the call returned. -/
def claimResults (input : InputState) (btn : MouseButton) :
    InputWidgetState → List (WidgetId × Rect) → List (WidgetId × Bool)
  | _, [] => []
  | ws, (id, rect) :: rest =>
    let r := Context.claim_drag_event input ws id rect btn
    (id, r.1) :: claimResults input btn r.2 rest

/-- Once a widget holds the drag claim, no claim_drag_event call moves it. -/
theorem claim_drag_event_keeps_holder (input : InputState)
    (ws : InputWidgetState) (w id : WidgetId) (rect : Rect) (btn : MouseButton)
    (h : ws.drag = some w) :
    (Context.claim_drag_event input ws id rect btn).2.drag = some w := by
  by_cases hid : w = id <;>
    simp [Context.claim_drag_event, h, hid]

/-- While a widget holds the drag claim, every claim by a different widget
returns false, across any sequence of claims. -/
theorem claimResults_false_of_holder (input : InputState) (btn : MouseButton)
    (w : WidgetId) :
    ∀ (ops : List (WidgetId × Rect)) (ws : InputWidgetState),
      ws.drag = some w →
      ∀ p ∈ claimResults input btn ws ops, p.1 ≠ w → p.2 = false := by
  intro ops
  induction ops with
  | nil => intro ws hws p hp; simp [claimResults] at hp
  | cons op rest ih =>
    intro ws hws p hp hpw
    rcases op with ⟨id, rect⟩
    simp only [claimResults, List.mem_cons] at hp
    rcases hp with hp | hp
    case inl =>
      subst hp
      simp only at hpw
      have : ¬ (id = w) := hpw
      have hne : ¬ (w = id) := fun hh => this hh.symm
      simp [Context.claim_drag_event, hws, hne]
    case inr =>
      have hkeep := claim_drag_event_keeps_holder input ws w id rect btn hws
      exact ih _ hkeep p hp hpw

/-- Claim C5: with an active drag for a button and no current holder, the
first widget whose hit rect contains the transformed drag position receives
true and becomes the holder; afterwards every claim by any other widget
returns false for any sequence of claims, until the mouse-released event
clears the holder. -/
theorem c5_claim_drag_mutual_exclusion (input : InputState)
    (ws : InputWidgetState) (btn : MouseButton) (pos : Pos2) (id1 : WidgetId)
    (rect1 : Rect)
    (hdrag : input.mouse.button_state.is_dragging btn = some pos)
    (hnone : ws.drag = none)
    (hin : rect1.contains (ws.cursor_transform pos) = true) :
    (Context.claim_drag_event input ws id1 rect1 btn).1 = true
    ∧ (Context.claim_drag_event input ws id1 rect1 btn).2.drag = some id1
    ∧ (∀ (ops : List (WidgetId × Rect)),
        ∀ p ∈ claimResults input btn
          (Context.claim_drag_event input ws id1 rect1 btn).2 ops,
          p.1 ≠ id1 → p.2 = false)
    ∧ (∀ ws2 : InputWidgetState,
        (InputState.on_mouse_input_released input ws2 btn).2.drag = none) := by
  have hclaim : Context.claim_drag_event input ws id1 rect1 btn
      = (true, { ws with drag := some id1 }) := by
    simp [Context.claim_drag_event, hnone, hdrag, hin]
  refine ⟨by rw [hclaim], by rw [hclaim], ?_, ?_⟩
  case _ =>
    intro ops p hp hpw
    refine claimResults_false_of_holder input btn id1 ops _ ?_ p hp hpw
    rw [hclaim]
  case _ =>
    intro ws2
    rfl

end Guee

namespace Guee

/-- A concrete input state with an active Primary-button drag at (5, 5). -/
def dragInputFixture : InputState :=
  { screen_size := ⟨800, 600⟩
    mouse :=
      { position := ⟨5, 5⟩
        prev_position := ⟨5, 5⟩
        button_state := ⟨[(MouseButton.Primary,
          { down := true, drag_state := .Dragged ⟨5, 5⟩, just_pressed := false
            just_released := false, just_clicked := false })]⟩
        ongoing_drag := .Idle }
    ev_buffer := [] }

/-- A concrete widget state with no focus and no drag holder, identity cursor
transform. -/
def dragWsFixture : InputWidgetState :=
  { focus := none, drag := none, cursor_transform := fun p => p }

/-- First overlapping hit rect. -/
def rectA : Rect := ⟨⟨0, 0⟩, ⟨10, 10⟩⟩

/-- Second overlapping hit rect. -/
def rectB : Rect := ⟨⟨3, 3⟩, ⟨20, 20⟩⟩

/-- Witness for C5: two overlapping rects, drag position in the overlap, the
first claimer wins and the second claimer is refused. -/
theorem c5_claim_drag_mutual_exclusion_witness :
    dragInputFixture.mouse.button_state.is_dragging .Primary = some ⟨5, 5⟩
    ∧ dragWsFixture.drag = none
    ∧ rectA.contains (dragWsFixture.cursor_transform ⟨5, 5⟩) = true
    ∧ rectB.contains (dragWsFixture.cursor_transform ⟨5, 5⟩) = true
    ∧ (Context.claim_drag_event dragInputFixture dragWsFixture 1 rectA .Primary).1
        = true
    ∧ (Context.claim_drag_event dragInputFixture dragWsFixture 1 rectA .Primary).2.drag
        = some 1
    ∧ (∀ p ∈ claimResults dragInputFixture .Primary
          (Context.claim_drag_event dragInputFixture dragWsFixture 1 rectA .Primary).2
          [(2, rectB)],
        p.1 ≠ 1 → p.2 = false) := by
  have hin1 : rectA.contains (dragWsFixture.cursor_transform ⟨5, 5⟩) = true := by
    norm_num [rectA, dragWsFixture, Rect.contains]
  have hin2 : rectB.contains (dragWsFixture.cursor_transform ⟨5, 5⟩) = true := by
    norm_num [rectB, dragWsFixture, Rect.contains]
  have hmain := c5_claim_drag_mutual_exclusion dragInputFixture dragWsFixture
    .Primary ⟨5, 5⟩ 1 rectA rfl rfl hin1
  exact ⟨rfl, rfl, hin1, hin2, hmain.1, hmain.2.1,
    fun p hp hpw => hmain.2.2.1 [(2, rectB)] p hp hpw⟩

end Guee

namespace Guee

/-! ### Type-erased values and the persistent memory store
(src/guee/src/memory.rs) -/

/-- Model of std::any::TypeId: an opaque tag, modelled as a natural. -/
abbrev Ty := Nat

/-- Model of a Box of dyn Any: a runtime type tag together with a value of
the type that tag denotes, for a fixed interpretation El of tags. -/
structure AnyBox (El : Ty → Type) where
  ty : Ty
  val : El ty

/-- Model of dyn Any downcast: succeeds exactly when the stored tag matches
the requested tag. -/
def AnyBox.downcast {El : Ty → Type} (b : AnyBox El) (t : Ty) : Option (El t) :=
  if h : b.ty = t then some (h ▸ b.val) else none

/-- Model of Memory: a map from (widget id, type tag) to a type-erased value,
the HashMap modelled as an association list with unique keys maintained by
insertion. -/
structure Memory (El : Ty → Type) where
  widget_memory : List ((WidgetId × Ty) × AnyBox El)

/-- Model of Memory::key: the key combines the widget id with the type tag of
the stored kind of value. -/
def Memory.key (t : Ty) (id : WidgetId) : WidgetId × Ty := (id, t)

/-- Association-list lookup standing for HashMap::get. -/
def Memory.lookup {El : Ty → Type} (m : Memory El) (k : WidgetId × Ty) :
    Option (AnyBox El) :=
  (m.widget_memory.find? (fun p => p.1 = k)).map (fun p => p.2)

/-- Model of Memory::set: inserts the value under (id, tag of the value). -/
def Memory.set {El : Ty → Type} (m : Memory El) (id : WidgetId)
    (b : AnyBox El) : Memory El :=
  ⟨assocInsert (Memory.key b.ty id) b m.widget_memory⟩

/-- Model of Memory::ensure: stores the given value only when the key has no
binding yet. -/
def Memory.ensure {El : Ty → Type} (m : Memory El) (id : WidgetId)
    (b : AnyBox El) : Memory El :=
  if (m.lookup (Memory.key b.ty id)).isSome then m else m.set id b

/-- Model of Memory::get: looks up (id, t) and downcasts to t; none models
the panics for a missing key or failed downcast. -/
def Memory.get {El : Ty → Type} (m : Memory El) (t : Ty) (id : WidgetId) :
    Option (El t) :=
  (m.lookup (Memory.key t id)).bind (fun b => b.downcast t)

/-- Model of Memory::get_or: ensure then get, with the updated store. -/
def Memory.get_or {El : Ty → Type} (m : Memory El) (id : WidgetId)
    (b : AnyBox El) : Option (El b.ty) × Memory El :=
  let m2 := m.ensure id b
  (m2.get b.ty id, m2)

/-- Looking up the key just inserted finds the inserted value. -/
theorem assocInsert_find_self {α β : Type} [DecidableEq α] (k : α) (v : β) :
    ∀ l : List (α × β),
      ((assocInsert k v l).find? (fun p => p.1 = k)).map (fun p => p.2) = some v := by
  intro l
  induction l with
  | nil => simp [assocInsert]
  | cons p rest ih =>
    by_cases hk : p.1 = k
    case pos => simp [assocInsert, hk]
    case neg => simp [assocInsert, hk, ih]

/-- Claim C7: set followed by get for the same stored type returns the stored
value, and with no binding present, get_or returns the first default and a
second get_or with any other default still returns the first default. -/
theorem c7_memory_roundtrip (El : Ty → Type) :
    (∀ (m : Memory El) (id : WidgetId) (t : Ty) (v : El t),
      (m.set id ⟨t, v⟩).get t id = some v)
    ∧ (∀ (m : Memory El) (id : WidgetId) (t : Ty) (v1 v2 : El t),
        m.lookup (Memory.key t id) = none →
        v1 ≠ v2 →
        (m.get_or id ⟨t, v1⟩).1 = some v1
        ∧ ((m.get_or id ⟨t, v1⟩).2.get_or id ⟨t, v2⟩).1 = some v1) := by
  have hget : ∀ (m : Memory El) (id : WidgetId) (t : Ty) (v : El t),
      (m.set id ⟨t, v⟩).get t id = some v := by
    intro m id t v
    simp [Memory.get, Memory.set, Memory.lookup, assocInsert_find_self,
      AnyBox.downcast]
  refine ⟨hget, ?_⟩
  intro m id t v1 v2 hnone _
  have hens1 : m.ensure id ⟨t, v1⟩ = m.set id ⟨t, v1⟩ := by
    simp [Memory.ensure, hnone]
  have hlook2 : (m.set id ⟨t, v1⟩).lookup (Memory.key t id) = some ⟨t, v1⟩ := by
    simp [Memory.set, Memory.lookup, assocInsert_find_self]
  have hens2 : (m.set id ⟨t, v1⟩).ensure id ⟨t, v2⟩ = m.set id ⟨t, v1⟩ := by
    simp [Memory.ensure, hlook2]
  constructor
  case left =>
    simp [Memory.get_or, hens1, hget]
  case right =>
    simp [Memory.get_or, hens1, hens2]
    simp [Memory.get, hlook2, AnyBox.downcast]

/-- The all-naturals tag interpretation used by concrete witnesses. -/
abbrev natEl : Ty → Type := fun _ => Nat

/-- Witness for C7 on a concrete empty store over natEl. -/
theorem c7_memory_roundtrip_witness :
    ((⟨[]⟩ : Memory natEl).set 7 ⟨0, 41⟩).get 0 7 = some 41
    ∧ (⟨[]⟩ : Memory natEl).lookup (Memory.key 0 7) = none
    ∧ (1 : natEl 0) ≠ 2
    ∧ ((⟨[]⟩ : Memory natEl).get_or 7 ⟨0, 1⟩).1 = some 1
    ∧ (((⟨[]⟩ : Memory natEl).get_or 7 ⟨0, 1⟩).2.get_or 7 ⟨0, 2⟩).1 = some 1 := by
  have hmain := c7_memory_roundtrip natEl
  have hpair := hmain.2 ⟨[]⟩ 7 0 1 2 rfl (by decide)
  exact ⟨hmain.1 ⟨[]⟩ 7 0 41, rfl, by decide, hpair.1, hpair.2⟩

end Guee

namespace Guee

/-! ### Accessor registry path search (src/guee/src/callback.rs,
AccessorRegistry::find_path).  The HashMap of accessors is modelled as a list
of (source type, target type) keys whose order stands for the map iteration
order; the visited HashSet is a list with set insertion. -/

/-- Result of the recursive search: a found path (reversed, target first), a
failed search, the "Should be a DAG" panic on meeting an already-visited
type, or fuel exhaustion (an artifact of the embedding; find_path always
supplies enough fuel, see find_path_never_fuelExhausted). -/
inductive DfsRes where
  | found (path : List Ty) (visited : List Ty)
  | notFound (visited : List Ty)
  | panicDag
  | outOfFuel
deriving DecidableEq, Repr

/-- The two panics of AccessorRegistry::find_path, plus the fuel artifact. -/
inductive FindPathPanic where
  | shouldBeDag
  | noRegisteredPath
  | fuelExhausted
deriving DecidableEq, Repr

/-- Model of the edge loop inside the recursive closure of find_path: for
each registered (src, dst) with src equal to the current type, panic if dst
was already visited, otherwise recurse into dst (the recursive call is passed
as an argument); on success push the current type onto the (reversed) path. -/
def findPathLoop (recCall : Ty → List Ty → DfsRes) (rem : List (Ty × Ty))
    (current target : Ty) (visited : List Ty) : DfsRes :=
  match rem with
  | [] => .notFound visited
  | (src, dst) :: rest =>
    if src = current then
      if dst ∈ visited then .panicDag
      else
        match recCall dst visited with
        | .found result v => .found (result ++ [current]) v
        | .notFound v => findPathLoop recCall rest current target v
        | .panicDag => .panicDag
        | .outOfFuel => .outOfFuel
    else findPathLoop recCall rest current target visited

/-- Model of the recursive closure inside find_path: mark the current type
visited, succeed if it is the target, otherwise scan the registered edges. -/
def findPathRec (reg : List (Ty × Ty)) : Nat → Ty → Ty → List Ty → DfsRes
  | 0, _, _, _ => .outOfFuel
  | fuel + 1, current, target, visited =>
    let visited2 := visited.insert current
    if current = target then .found [current] visited2
    else findPathLoop (fun dst vis => findPathRec reg fuel dst target vis)
      reg current target visited2

/-- Model of AccessorRegistry::find_path over the edge keys: runs the
recursive search from the root with an empty visited set and reverses the
found path; notFound is the "No registered accessor" panic. -/
def find_path (reg : List (Ty × Ty)) (from_typ to_typ : Ty) :
    Except FindPathPanic (List Ty) :=
  match findPathRec reg (reg.length + 1) from_typ to_typ [] with
  | .found p _ => .ok p.reverse
  | .notFound _ => .error .noRegisteredPath
  | .panicDag => .error .shouldBeDag
  | .outOfFuel => .error .fuelExhausted

end Guee

namespace Guee

/-! ### Reachability over registered projections -/

/-- Reachability along registered projection edges. -/
inductive Reach (reg : List (Ty × Ty)) : Ty → Ty → Prop
  | refl (a : Ty) : Reach reg a a
  | tail {a b c : Ty} : Reach reg a b → (b, c) ∈ reg → Reach reg a c

/-- A registered edge is a one-step reach. -/
theorem Reach.of_edge {reg : List (Ty × Ty)} {a b : Ty} (h : (a, b) ∈ reg) :
    Reach reg a b :=
  Reach.tail (Reach.refl a) h

/-- Reachability is transitive. -/
theorem Reach.trans {reg : List (Ty × Ty)} {a b c : Ty}
    (hab : Reach reg a b) (hbc : Reach reg b c) : Reach reg a c := by
  induction hbc with
  | refl => exact hab
  | tail _ hedge ih => exact Reach.tail ih hedge

/-- A nontrivial reach decomposes at its last edge. -/
theorem Reach.last_decomp {reg : List (Ty × Ty)} {a b : Ty}
    (h : Reach reg a b) (hne : a ≠ b) :
    ∃ e, Reach reg a e ∧ (e, b) ∈ reg := by
  induction h with
  | refl => exact absurd rfl hne
  | tail hr hedge _ => exact ⟨_, hr, hedge⟩

/-- A nontrivial reach decomposes at its first edge. -/
theorem Reach.head_decomp {reg : List (Ty × Ty)} {a b : Ty}
    (h : Reach reg a b) : a ≠ b → ∃ x, (a, x) ∈ reg ∧ Reach reg x b := by
  induction h with
  | refl => intro hne; exact absurd rfl hne
  | @tail b0 c0 hr hedge ih =>
    intro _
    by_cases hab : a = b0
    case pos =>
      subst hab
      exact ⟨c0, hedge, Reach.refl c0⟩
    case neg =>
      obtain ⟨x, hx, hxb⟩ := ih hab
      exact ⟨x, hx, Reach.tail hxb hedge⟩

/-- In a registry where no two projections share a target, parents are
unique. -/
theorem unique_parent {reg : List (Ty × Ty)}
    (hdeg : reg.Pairwise (fun e f => e.2 ≠ f.2)) {a b t : Ty}
    (ha : (a, t) ∈ reg) (hb : (b, t) ∈ reg) : a = b := by
  induction reg with
  | nil => simp at ha
  | cons e rest ih =>
    rcases List.pairwise_cons.mp hdeg with ⟨he, hrest⟩
    rcases List.mem_cons.mp ha with ha1 | ha1 <;>
      rcases List.mem_cons.mp hb with hb1 | hb1
    case inl.inl =>
      rw [← hb1] at ha1
      exact congrArg Prod.fst ha1
    case inl.inr =>
      exact absurd (congrArg Prod.snd ha1.symm) (he (b, t) hb1)
    case inr.inl =>
      exact absurd (congrArg Prod.snd hb1.symm) (he (a, t) ha1)
    case inr.inr => exact ih hrest ha1 hb1

end Guee

namespace Guee

/-- A cycle through c: a reach from c back to an in-edge of c. -/
def CycleAt (reg : List (Ty × Ty)) (c : Ty) : Prop :=
  ∃ b, Reach reg c b ∧ (b, c) ∈ reg

/-- A reach into c followed by an in-edge of the start gives a cycle at the
start. -/
theorem cycleAt_of_reach_back {reg : List (Ty × Ty)} {c d : Ty}
    (hcd : (c, d) ∈ reg) (hdc : Reach reg d c) : CycleAt reg c := by
  by_cases hdceq : d = c
  case pos =>
    subst hdceq
    exact ⟨d, Reach.refl d, hcd⟩
  case neg =>
    obtain ⟨e, hde, hec⟩ := Reach.last_decomp hdc hdceq
    exact ⟨e, Reach.trans (Reach.of_edge hcd) hde, hec⟩

/-- In a shared-target-free registry whose root has no in-edges, no type
reachable from the root lies on a cycle. -/
theorem no_cycle_of_reachable {reg : List (Ty × Ty)}
    (hdeg : reg.Pairwise (fun e f => e.2 ≠ f.2)) {root c : Ty}
    (hroot : ∀ e ∈ reg, e.2 ≠ root)
    (hreach : Reach reg root c) : ¬ CycleAt reg c := by
  induction hreach with
  | refl =>
    rintro ⟨b, _, hedge⟩
    exact hroot (b, root) hedge rfl
  | @tail b0 c0 hr hedge ih =>
    rintro ⟨d, hcd, hdc⟩
    have hd : d = b0 := unique_parent hdeg hdc hedge
    subst hd
    by_cases hbc : c0 = d
    case pos =>
      subst hbc
      exact ih ⟨c0, Reach.refl c0, hedge⟩
    case neg =>
      obtain ⟨e, hce, hed⟩ := Reach.last_decomp hcd hbc
      exact ih ⟨e, Reach.trans (Reach.of_edge hedge) hce, hed⟩

/-- In a shared-target-free registry, two types that both reach a third are
comparable. -/
theorem reach_comparable {reg : List (Ty × Ty)}
    (hdeg : reg.Pairwise (fun e f => e.2 ≠ f.2)) {x y t : Ty}
    (hx : Reach reg x t) (hy : Reach reg y t) :
    Reach reg x y ∨ Reach reg y x := by
  induction hx with
  | refl => exact Or.inr hy
  | @tail b0 c0 hr hedge ih =>
    by_cases hyc : y = c0
    case pos =>
      subst hyc
      exact Or.inl (Reach.tail hr hedge)
    case neg =>
      obtain ⟨e, hye, hec⟩ := Reach.last_decomp hy hyc
      have he : e = b0 := unique_parent hdeg hec hedge
      subst he
      exact ih hye

end Guee

namespace Guee

/-- Whether a search result carries a visited set extending v. -/
def DfsRes.visitedExtends (v : List Ty) : DfsRes → Prop
  | .found _ v2 => v ⊆ v2
  | .notFound v2 => v ⊆ v2
  | .panicDag => True
  | .outOfFuel => True

/-- Extension of the visited set composes with subset on the left. -/
theorem DfsRes.visitedExtends_of_subset {v v2 : List Ty} {r : DfsRes}
    (hsub : v ⊆ v2) (h : DfsRes.visitedExtends v2 r) :
    DfsRes.visitedExtends v r := by
  rcases r <;> simp only [DfsRes.visitedExtends] at h ⊢ <;>
    first
      | trivial
      | exact fun x hx => h (hsub hx)

/-- The edge loop only grows the visited set, provided the recursive call
does. -/
theorem findPathLoop_mono (recCall : Ty → List Ty → DfsRes)
    (hrec : ∀ d v, DfsRes.visitedExtends v (recCall d v)) :
    ∀ (rem : List (Ty × Ty)) (cur tgt : Ty) (v : List Ty),
      DfsRes.visitedExtends v (findPathLoop recCall rem cur tgt v) := by
  intro rem
  induction rem with
  | nil =>
    intro cur tgt v
    simp [findPathLoop, DfsRes.visitedExtends, List.Subset.refl]
  | cons e rest ih =>
    intro cur tgt v
    rcases e with ⟨src, dst⟩
    by_cases hsrc : src = cur
    case neg => simpa [findPathLoop, hsrc] using ih cur tgt v
    case pos =>
      by_cases hvis : dst ∈ v
      case pos => simp [findPathLoop, hsrc, hvis, DfsRes.visitedExtends]
      case neg =>
        have hrc := hrec dst v
        cases hres : recCall dst v with
        | found p v2 =>
          rw [hres] at hrc
          simpa [findPathLoop, hsrc, hvis, hres, DfsRes.visitedExtends] using hrc
        | notFound v2 =>
          rw [hres] at hrc
          have hrest := ih cur tgt v2
          simpa [findPathLoop, hsrc, hvis, hres] using
            DfsRes.visitedExtends_of_subset hrc hrest
        | panicDag =>
          simp [findPathLoop, hsrc, hvis, hres, DfsRes.visitedExtends]
        | outOfFuel =>
          simp [findPathLoop, hsrc, hvis, hres, DfsRes.visitedExtends]

/-- The recursive search only grows the visited set. -/
theorem findPathRec_mono (reg : List (Ty × Ty)) :
    ∀ (fuel : Nat) (cur tgt : Ty) (v : List Ty),
      DfsRes.visitedExtends v (findPathRec reg fuel cur tgt v) := by
  intro fuel
  induction fuel with
  | zero => intro cur tgt v; simp [findPathRec, DfsRes.visitedExtends]
  | succ fuel ih =>
    intro cur tgt v
    by_cases htgt : cur = tgt
    case pos =>
      simp [findPathRec, htgt, DfsRes.visitedExtends,
        List.subset_insert _ _]
    case neg =>
      have hloop := findPathLoop_mono
        (fun d vis => findPathRec reg fuel d tgt vis)
        (fun d vis => ih d tgt vis) reg cur tgt (v.insert cur)
      have hsub : v ⊆ v.insert cur := List.subset_insert _ _
      simpa [findPathRec, htgt] using
        DfsRes.visitedExtends_of_subset hsub hloop

end Guee

namespace Guee

/-- Number of registered target types not yet visited (with multiplicity). -/
def unvisitedCount (reg : List (Ty × Ty)) (v : List Ty) : Nat :=
  (reg.map Prod.snd).countP (fun d => decide (d ∉ v))

/-- A strictly finer predicate with a witness strictly lowers countP. -/
theorem countP_lt_of_witness {α : Type} (l : List α) (p q : α → Bool)
    (himp : ∀ x, q x = true → p x = true) (x0 : α) (hx0 : x0 ∈ l)
    (hp : p x0 = true) (hq : q x0 = false) :
    l.countP q < l.countP p := by
  induction l with
  | nil => simp at hx0
  | cons a as ih =>
    rcases List.mem_cons.mp hx0 with h | h
    case inl =>
      subst h
      have hmono : as.countP q ≤ as.countP p :=
        List.countP_mono_left (fun x _ hx => himp x hx)
      simp [List.countP_cons, hp, hq]
      omega
    case inr =>
      have := ih h
      by_cases hqa : q a = true
      case pos =>
        simp [List.countP_cons, hqa, himp a hqa]
        omega
      case neg =>
        simp only [Bool.not_eq_true] at hqa
        by_cases hpa : p a = true <;>
          simp [List.countP_cons, hqa, hpa] <;> omega

/-- Growing the visited set cannot raise the unvisited count. -/
theorem unvisitedCount_le_of_subset (reg : List (Ty × Ty)) {v v2 : List Ty}
    (h : v ⊆ v2) : unvisitedCount reg v2 ≤ unvisitedCount reg v := by
  apply List.countP_mono_left
  intro d _ hd
  simp only [decide_eq_true_eq] at hd ⊢
  exact fun hdv => hd (h hdv)

/-- Visiting a registered target strictly lowers the unvisited count. -/
theorem unvisitedCount_insert_lt (reg : List (Ty × Ty)) {v : List Ty} {d : Ty}
    (hd : d ∈ reg.map Prod.snd) (hdv : d ∉ v) :
    unvisitedCount reg (v.insert d) < unvisitedCount reg v := by
  refine countP_lt_of_witness _ _ _ ?himp d hd ?hp ?hq
  case hp => simpa using hdv
  case hq => simp [List.mem_insert_iff]
  case himp =>
    intro x hx
    simp only [decide_eq_true_eq, List.mem_insert_iff] at hx ⊢
    exact fun hxv => hx (Or.inr hxv)

end Guee

namespace Guee

/-- With enough fuel the edge loop never runs out, provided the recursive
call does not under its own fuel bound. -/
theorem findPathLoop_no_fuel (reg : List (Ty × Ty)) (fuel : Nat)
    (recCall : Ty → List Ty → DfsRes)
    (hrecmono : ∀ d v, DfsRes.visitedExtends v (recCall d v))
    (hrecnf : ∀ d v, unvisitedCount reg (v.insert d) < fuel →
      recCall d v ≠ .outOfFuel) :
    ∀ rem : List (Ty × Ty), (∀ e ∈ rem, e ∈ reg) →
      ∀ (cur tgt : Ty) (v : List Ty), unvisitedCount reg v ≤ fuel →
        findPathLoop recCall rem cur tgt v ≠ .outOfFuel := by
  intro rem
  induction rem with
  | nil => intro _ cur tgt v _; simp [findPathLoop]
  | cons e rest ih =>
    intro hrem cur tgt v hfuel
    rcases e with ⟨src, dst⟩
    by_cases hsrc : src = cur
    case neg =>
      simpa [findPathLoop, hsrc] using
        ih (fun e he => hrem e (List.mem_cons_of_mem _ he)) cur tgt v hfuel
    case pos =>
      by_cases hvis : dst ∈ v
      case pos => simp [findPathLoop, hsrc, hvis]
      case neg =>
        have hdst : dst ∈ reg.map Prod.snd := by
          have : (src, dst) ∈ reg := hrem (src, dst) (List.mem_cons_self _ _)
          exact List.mem_map.mpr ⟨(src, dst), this, rfl⟩
        have hlt : unvisitedCount reg (v.insert dst) < fuel :=
          lt_of_lt_of_le (unvisitedCount_insert_lt reg hdst hvis) hfuel
        have hnf := hrecnf dst v hlt
        have hmono := hrecmono dst v
        cases hres : recCall dst v with
        | found p v2 => simp [findPathLoop, hsrc, hvis, hres]
        | notFound v2 =>
          rw [hres] at hmono
          have hle : unvisitedCount reg v2 ≤ fuel :=
            le_trans (unvisitedCount_le_of_subset reg hmono) hfuel
          simpa [findPathLoop, hsrc, hvis, hres] using
            ih (fun e he => hrem e (List.mem_cons_of_mem _ he)) cur tgt v2 hle
        | panicDag => simp [findPathLoop, hsrc, hvis, hres]
        | outOfFuel => exact absurd hres hnf

/-- With fuel exceeding the unvisited count the recursive search never runs
out of fuel. -/
theorem findPathRec_no_fuel (reg : List (Ty × Ty)) :
    ∀ (fuel : Nat) (cur tgt : Ty) (v : List Ty),
      unvisitedCount reg (v.insert cur) < fuel →
      findPathRec reg fuel cur tgt v ≠ .outOfFuel := by
  intro fuel
  induction fuel with
  | zero => intro cur tgt v h; exact absurd h (Nat.not_lt_zero _)
  | succ fuel ih =>
    intro cur tgt v h
    by_cases htgt : cur = tgt
    case pos => simp [findPathRec, htgt]
    case neg =>
      have hle : unvisitedCount reg (v.insert cur) ≤ fuel := Nat.lt_succ_iff.mp h
      simpa [findPathRec, htgt] using
        findPathLoop_no_fuel reg fuel
          (fun d vis => findPathRec reg fuel d tgt vis)
          (fun d vis => findPathRec_mono reg fuel d tgt vis)
          (fun d vis hlt => ih d tgt vis hlt)
          reg (fun e he => he) cur tgt (v.insert cur) hle

/-- The fuel supplied by find_path always suffices: the fuelExhausted outcome
is unreachable, so the model panics exactly where the source panics. -/
theorem find_path_never_fuelExhausted (reg : List (Ty × Ty))
    (from_typ to_typ : Ty) :
    find_path reg from_typ to_typ ≠ .error .fuelExhausted := by
  have hcount : unvisitedCount reg (([] : List Ty).insert from_typ)
      < reg.length + 1 := by
    have h1 : unvisitedCount reg (([] : List Ty).insert from_typ)
        ≤ unvisitedCount reg [] :=
      unvisitedCount_le_of_subset reg (by intro x hx; simp at hx)
    have h2 : unvisitedCount reg [] = reg.length := by
      simp [unvisitedCount, List.countP_eq_length_filter]
    omega
  have hnf := findPathRec_no_fuel reg (reg.length + 1) from_typ to_typ [] hcount
  unfold find_path
  cases hres : findPathRec reg (reg.length + 1) from_typ to_typ [] with
  | found p v => simp
  | notFound v => simp
  | panicDag => simp
  | outOfFuel => exact absurd hres hnf

end Guee

namespace Guee

/-- Soundness of the edge loop: a found path is a reversed chain of
registered edges from the target back to the current type, provided the
recursive call is sound. -/
theorem findPathLoop_sound (reg : List (Ty × Ty)) (recCall : Ty → List Ty → DfsRes)
    (tgt : Ty)
    (hrec : ∀ d v p v2, recCall d v = .found p v2 →
      p.head? = some tgt ∧ p.getLast? = some d
        ∧ List.Chain' (fun a b => (b, a) ∈ reg) p) :
    ∀ rem : List (Ty × Ty), (∀ e ∈ rem, e ∈ reg) →
      ∀ (cur : Ty) (v p : List Ty) (v2 : List Ty),
        findPathLoop recCall rem cur tgt v = .found p v2 →
        p.head? = some tgt ∧ p.getLast? = some cur
          ∧ List.Chain' (fun a b => (b, a) ∈ reg) p := by
  intro rem
  induction rem with
  | nil => intro _ cur v p v2 h; simp [findPathLoop] at h
  | cons e rest ih =>
    intro hrem cur v p v2 h
    rcases e with ⟨src, dst⟩
    by_cases hsrc : src = cur
    case neg =>
      rw [findPathLoop, if_neg hsrc] at h
      exact ih (fun e he => hrem e (List.mem_cons_of_mem _ he)) cur v p v2 h
    case pos =>
      by_cases hvis : dst ∈ v
      case pos => simp [findPathLoop, hsrc, hvis] at h
      case neg =>
        rw [findPathLoop, if_pos hsrc, if_neg hvis] at h
        cases hres : recCall dst v with
        | found q vq =>
          rw [hres] at h
          simp only [DfsRes.found.injEq] at h
          obtain ⟨hq1, hq2, hq3⟩ := hrec dst v q vq hres
          have hedge : (cur, dst) ∈ reg := by
            have := hrem (src, dst) (List.mem_cons_self _ _)
            rwa [hsrc] at this
          have hqne : q ≠ [] := by
            intro hemp; rw [hemp] at hq1; simp at hq1
          refine h.1 ▸ ⟨?_, ?_, ?_⟩
          case _ => rwa [List.head?_append_of_ne_nil _ hqne]
          case _ => simp [List.getLast?_concat]
          case _ =>
            rw [List.chain'_append]
            refine ⟨hq3, List.chain'_singleton _, ?_⟩
            intro x hx y hy
            rw [hq2] at hx
            simp at hx hy
            rw [← hx, ← hy]
            exact hedge
        | notFound vq =>
          rw [hres] at h
          exact ih (fun e he => hrem e (List.mem_cons_of_mem _ he)) cur vq p v2 h
        | panicDag => rw [hres] at h; simp at h
        | outOfFuel => rw [hres] at h; simp at h

/-- Soundness of the recursive search: a found path is a reversed chain of
registered edges from the target back to the start. -/
theorem findPathRec_sound (reg : List (Ty × Ty)) :
    ∀ (fuel : Nat) (cur tgt : Ty) (v p : List Ty) (v2 : List Ty),
      findPathRec reg fuel cur tgt v = .found p v2 →
      p.head? = some tgt ∧ p.getLast? = some cur
        ∧ List.Chain' (fun a b => (b, a) ∈ reg) p := by
  intro fuel
  induction fuel with
  | zero => intro cur tgt v p v2 h; simp [findPathRec] at h
  | succ fuel ih =>
    intro cur tgt v p v2 h
    by_cases htgt : cur = tgt
    case pos =>
      rw [findPathRec, if_pos htgt] at h
      simp only [DfsRes.found.injEq] at h
      subst htgt
      rw [← h.1]
      simp
    case neg =>
      rw [findPathRec, if_neg htgt] at h
      exact findPathLoop_sound reg _ tgt
        (fun d vd q vq hq => ih d tgt vd q vq hq)
        reg (fun e he => he) cur _ p v2 h

/-- Soundness of find_path: a returned path starts at the root type, ends at
the requested type, and follows registered projection edges. -/
theorem find_path_sound (reg : List (Ty × Ty)) (from_typ to_typ : Ty)
    (q : List Ty) (h : find_path reg from_typ to_typ = .ok q) :
    q.head? = some from_typ ∧ q.getLast? = some to_typ
      ∧ List.Chain' (fun a b => (a, b) ∈ reg) q := by
  unfold find_path at h
  cases hres : findPathRec reg (reg.length + 1) from_typ to_typ [] with
  | found p v =>
    rw [hres] at h
    simp only [Except.ok.injEq] at h
    obtain ⟨h1, h2, h3⟩ := findPathRec_sound reg _ _ _ _ _ _ hres
    subst h
    refine ⟨?_, ?_, ?_⟩
    case _ => rwa [List.head?_reverse]
    case _ => rwa [List.getLast?_reverse]
    case _ =>
      rw [List.chain'_reverse]
      exact h3
  | notFound v => rw [hres] at h; simp at h
  | panicDag => rw [hres] at h; simp at h
  | outOfFuel => rw [hres] at h; simp at h

end Guee

namespace Guee

/-- In a shared-target-free registry, the head edge of a suffix of the
registry cannot recur in its tail. -/
theorem head_not_in_rest {reg rem : List (Ty × Ty)} {e : Ty × Ty}
    {rest : List (Ty × Ty)}
    (hdeg : reg.Pairwise (fun e f => e.2 ≠ f.2))
    (hsub : rem.Sublist reg) (hrem : rem = e :: rest) : e ∉ rest := by
  subst hrem
  have hpw := List.Pairwise.sublist hsub hdeg
  rcases List.pairwise_cons.mp hpw with ⟨hhead, _⟩
  intro hmem
  exact hhead e hmem rfl

/-- Completeness of the edge loop on forest registries: if some remaining
edge out of the current type reaches the target, the loop finds a path; if
none does, the loop reports notFound having visited only types reachable
from the current one. -/
theorem findPathLoop_forest (reg : List (Ty × Ty))
    (hdeg : reg.Pairwise (fun e f => e.2 ≠ f.2)) (root tgt : Ty)
    (hroot : ∀ e ∈ reg, e.2 ≠ root)
    (fuel : Nat) (recCall : Ty → List Ty → DfsRes)
    (hrec : ∀ d v, (∀ x ∈ v, ¬ Reach reg d x) → Reach reg root d →
      unvisitedCount reg (v.insert d) < fuel →
      ((Reach reg d tgt → ∃ p v2, recCall d v = .found p v2)
        ∧ (¬ Reach reg d tgt → ∃ v2, recCall d v = .notFound v2
            ∧ v.insert d ⊆ v2
            ∧ ∀ x ∈ v2, x ∈ v ∨ Reach reg d x))) :
    ∀ rem : List (Ty × Ty), rem.Sublist reg →
      ∀ (cur : Ty) (v : List Ty),
        Reach reg root cur →
        cur ∈ v →
        (∀ x ∈ v, x = cur ∨ ¬ Reach reg cur x
          ∨ ∃ d, (cur, d) ∈ reg ∧ (cur, d) ∉ rem ∧ Reach reg d x) →
        unvisitedCount reg v ≤ fuel →
        ((∃ d, (cur, d) ∈ rem ∧ Reach reg d tgt) →
            ∃ p v2, findPathLoop recCall rem cur tgt v = .found p v2)
        ∧ ((∀ d, (cur, d) ∈ rem → ¬ Reach reg d tgt) →
            ∃ v2, findPathLoop recCall rem cur tgt v = .notFound v2
              ∧ v ⊆ v2
              ∧ ∀ x ∈ v2, x ∈ v ∨ ∃ d, (cur, d) ∈ reg ∧ Reach reg d x) := by
  intro rem
  induction rem with
  | nil =>
    intro _ cur v _ _ _ _
    constructor
    case left => rintro ⟨d, hd, _⟩; simp at hd
    case right =>
      intro _
      exact ⟨v, rfl, List.Subset.refl v, fun x hx => Or.inl hx⟩
  | cons e rest ih =>
    intro hsub cur v hreach hcurv hli hfuel
    rcases e with ⟨src, dst⟩
    have hsubrest : rest.Sublist reg := (List.sublist_cons_self _ _).trans hsub
    by_cases hsrc : src = cur
    case neg =>
      have hli2 : ∀ x ∈ v, x = cur ∨ ¬ Reach reg cur x
          ∨ ∃ d, (cur, d) ∈ reg ∧ (cur, d) ∉ rest ∧ Reach reg d x := by
        intro x hx
        rcases hli x hx with h | h | ⟨d, hd1, hd2, hd3⟩
        case inl => exact Or.inl h
        case inr.inl => exact Or.inr (Or.inl h)
        case inr.inr =>
          refine Or.inr (Or.inr ⟨d, hd1, ?_, hd3⟩)
          intro hmem
          exact hd2 (List.mem_cons_of_mem _ hmem)
      have hih := ih hsubrest cur v hreach hcurv hli2 hfuel
      constructor
      case left =>
        rintro ⟨d, hd, hdreach⟩
        rcases List.mem_cons.mp hd with hd0 | hd0
        case inl =>
          exact absurd (congrArg Prod.fst hd0.symm) hsrc
        case inr =>
          obtain ⟨p, v2, hp⟩ := hih.1 ⟨d, hd0, hdreach⟩
          exact ⟨p, v2, by rw [findPathLoop, if_neg hsrc]; exact hp⟩
      case right =>
        intro hall
        obtain ⟨v2, hp, hs, hc⟩ := hih.2
          (fun d hd => hall d (List.mem_cons_of_mem _ hd))
        exact ⟨v2, by rw [findPathLoop, if_neg hsrc]; exact hp, hs, hc⟩
    case pos =>
      subst hsrc
      have hedge_reg : (src, dst) ∈ reg := hsub.subset (List.mem_cons_self _ _)
      have hnocyc := no_cycle_of_reachable hdeg hroot hreach
      have hheadrest : (src, dst) ∉ rest := head_not_in_rest hdeg hsub rfl
      have hdstnv : dst ∉ v := by
        intro hdv
        rcases hli dst hdv with h | h | ⟨d, hd1, hd2, hd3⟩
        case inl =>
          subst h
          exact hnocyc ⟨dst, Reach.refl dst, hedge_reg⟩
        case inr.inl => exact h (Reach.of_edge hedge_reg)
        case inr.inr =>
          have hdne : d ≠ dst := by
            intro hh
            subst hh
            exact hd2 (List.mem_cons_self _ _)
          obtain ⟨e, hde, hedst⟩ := Reach.last_decomp hd3 hdne
          have : e = src := unique_parent hdeg hedst hedge_reg
          subst this
          exact hnocyc (cycleAt_of_reach_back hd1 hde)
      have hstep : ∀ x ∈ v, ¬ Reach reg dst x := by
        intro x hx hreachdx
        rcases hli x hx with h | h | ⟨d, hd1, hd2, hd3⟩
        case inl =>
          subst h
          exact hnocyc (cycleAt_of_reach_back hedge_reg hreachdx)
        case inr.inl =>
          exact h (Reach.trans (Reach.of_edge hedge_reg) hreachdx)
        case inr.inr =>
          have hdne : d ≠ dst := by
            intro hh
            subst hh
            exact hd2 (List.mem_cons_self _ _)
          rcases reach_comparable hdeg hreachdx hd3 with hcmp | hcmp
          case inl =>
            obtain ⟨e, hdste, hed⟩ := Reach.last_decomp hcmp
              (fun hh => hdne hh.symm)
            have : e = src := unique_parent hdeg hed hd1
            subst this
            exact hnocyc (cycleAt_of_reach_back hedge_reg hdste)
          case inr =>
            obtain ⟨e, hdde, hedst⟩ := Reach.last_decomp hcmp hdne
            have : e = src := unique_parent hdeg hedst hedge_reg
            subst this
            exact hnocyc (cycleAt_of_reach_back hd1 hdde)
      have hreachdst : Reach reg root dst :=
        Reach.tail hreach hedge_reg
      have hcnt : unvisitedCount reg (v.insert dst) < fuel :=
        lt_of_lt_of_le
          (unvisitedCount_insert_lt reg
            (List.mem_map.mpr ⟨(src, dst), hedge_reg, rfl⟩) hdstnv)
          hfuel
      have hrecspec := hrec dst v hstep hreachdst hcnt
      by_cases hdt : Reach reg dst tgt
      case pos =>
        obtain ⟨p, v2, hfound⟩ := hrecspec.1 hdt
        constructor
        case left =>
          intro _
          refine ⟨p ++ [src], v2, ?_⟩
          rw [findPathLoop, if_pos rfl, if_neg hdstnv, hfound]
        case right =>
          intro hall
          exact absurd hdt (hall dst (List.mem_cons_self _ _))
      case neg =>
        obtain ⟨v2, hnf, hsub2, hchar⟩ := hrecspec.2 hdt
        have hvv2 : v ⊆ v2 := (List.subset_insert _ _).trans hsub2
        have hsrc2 : src ∈ v2 := hvv2 hcurv
        have hli2 : ∀ x ∈ v2, x = src ∨ ¬ Reach reg src x
            ∨ ∃ d, (src, d) ∈ reg ∧ (src, d) ∉ rest ∧ Reach reg d x := by
          intro x hx
          rcases hchar x hx with hx2 | hx2
          case inl =>
            rcases hli x hx2 with h | h | ⟨d, hd1, hd2, hd3⟩
            case inl => exact Or.inl h
            case inr.inl => exact Or.inr (Or.inl h)
            case inr.inr =>
              refine Or.inr (Or.inr ⟨d, hd1, ?_, hd3⟩)
              intro hmem
              exact hd2 (List.mem_cons_of_mem _ hmem)
          case inr =>
            exact Or.inr (Or.inr ⟨dst, hedge_reg, hheadrest, hx2⟩)
        have hfuel2 : unvisitedCount reg v2 ≤ fuel :=
          le_trans (unvisitedCount_le_of_subset reg hvv2) hfuel
        have hih := ih hsubrest src v2 hreach hsrc2 hli2 hfuel2
        constructor
        case left =>
          rintro ⟨d, hd, hdreach⟩
          rcases List.mem_cons.mp hd with hd0 | hd0
          case inl =>
            have : d = dst := congrArg Prod.snd hd0
            rw [this] at hdreach
            exact absurd hdreach hdt
          case inr =>
            obtain ⟨p, v3, hp⟩ := hih.1 ⟨d, hd0, hdreach⟩
            refine ⟨p, v3, ?_⟩
            rw [findPathLoop, if_pos rfl, if_neg hdstnv, hnf]
            exact hp
        case right =>
          intro hall
          obtain ⟨v3, hp, hs3, hc3⟩ := hih.2
            (fun d hd => hall d (List.mem_cons_of_mem _ hd))
          refine ⟨v3, ?_, hvv2.trans hs3, ?_⟩
          case _ =>
            rw [findPathLoop, if_pos rfl, if_neg hdstnv, hnf]
            exact hp
          case _ =>
            intro x hx
            rcases hc3 x hx with hx3 | hx3
            case inl =>
              rcases hchar x hx3 with hx2 | hx2
              case inl => exact Or.inl hx2
              case inr => exact Or.inr ⟨dst, hedge_reg, hx2⟩
            case inr => exact Or.inr hx3

end Guee

namespace Guee

/-- Completeness of the recursive search on forest registries. -/
theorem findPathRec_forest (reg : List (Ty × Ty))
    (hdeg : reg.Pairwise (fun e f => e.2 ≠ f.2)) (root tgt : Ty)
    (hroot : ∀ e ∈ reg, e.2 ≠ root) :
    ∀ (fuel : Nat) (d : Ty) (v : List Ty),
      (∀ x ∈ v, ¬ Reach reg d x) → Reach reg root d →
      unvisitedCount reg (v.insert d) < fuel →
      ((Reach reg d tgt →
          ∃ p v2, findPathRec reg fuel d tgt v = .found p v2)
        ∧ (¬ Reach reg d tgt →
            ∃ v2, findPathRec reg fuel d tgt v = .notFound v2
              ∧ v.insert d ⊆ v2
              ∧ ∀ x ∈ v2, x ∈ v ∨ Reach reg d x)) := by
  intro fuel
  induction fuel with
  | zero =>
    intro d v _ _ hcnt
    exact absurd hcnt (Nat.not_lt_zero _)
  | succ fuel ih =>
    intro d v hnv hreach hcnt
    by_cases hdt : d = tgt
    case pos =>
      constructor
      case left =>
        intro _
        exact ⟨[d], v.insert d, by rw [findPathRec, if_pos hdt]⟩
      case right =>
        intro hn
        exact absurd (hdt ▸ Reach.refl d) hn
    case neg =>
      have hloop := findPathLoop_forest reg hdeg root tgt hroot fuel
        (fun d2 vis => findPathRec reg fuel d2 tgt vis)
        (fun d2 vis ha hb hc => ih d2 vis ha hb hc)
        reg (List.Sublist.refl reg) d (v.insert d) hreach
        (List.mem_insert_self _ _)
        (by
          intro x hx
          rcases List.mem_insert_iff.mp hx with h | h
          case inl => exact Or.inl h
          case inr => exact Or.inr (Or.inl (hnv x h)))
        (Nat.lt_succ_iff.mp hcnt)
      constructor
      case left =>
        intro hreachdt
        obtain ⟨x1, hx1, hx1r⟩ := Reach.head_decomp hreachdt hdt
        obtain ⟨p, v2, hp⟩ := hloop.1 ⟨x1, hx1, hx1r⟩
        exact ⟨p, v2, by rw [findPathRec, if_neg hdt]; exact hp⟩
      case right =>
        intro hn
        obtain ⟨v2, hp, hs, hc⟩ := hloop.2
          (fun d2 hd2 hr => hn (Reach.trans (Reach.of_edge hd2) hr))
        refine ⟨v2, by rw [findPathRec, if_neg hdt]; exact hp, hs, ?_⟩
        intro x hx
        rcases hc x hx with hx2 | ⟨d2, hd2, hd2r⟩
        · rcases List.mem_insert_iff.mp hx2 with h | h
          · subst h
            exact Or.inr (Reach.refl x)
          · exact Or.inl h
        · exact Or.inr (Reach.trans (Reach.of_edge hd2) hd2r)

end Guee

namespace Guee

/-- Claim C2, amended: on a registry whose projections form a forest (no two
projections share a target type and none targets the root type), find_path
returns a chain of registered projections from the root type to the
requested type exactly when the requested type is reachable, and panics with
the no-registered-path message exactly when it is unreachable. -/
theorem c2_find_path_forest (reg : List (Ty × Ty)) (from_typ to_typ : Ty)
    (hdeg : reg.Pairwise (fun e f => e.2 ≠ f.2))
    (hroot : ∀ e ∈ reg, e.2 ≠ from_typ) :
    (Reach reg from_typ to_typ →
      ∃ p, find_path reg from_typ to_typ = .ok p
        ∧ p.head? = some from_typ ∧ p.getLast? = some to_typ
        ∧ List.Chain' (fun a b => (a, b) ∈ reg) p)
    ∧ (¬ Reach reg from_typ to_typ →
        find_path reg from_typ to_typ = .error .noRegisteredPath) := by
  have hcount : unvisitedCount reg (([] : List Ty).insert from_typ)
      < reg.length + 1 := by
    have h1 : unvisitedCount reg (([] : List Ty).insert from_typ)
        ≤ unvisitedCount reg [] :=
      unvisitedCount_le_of_subset reg (by intro x hx; simp at hx)
    have h2 : unvisitedCount reg [] = reg.length := by
      simp [unvisitedCount, List.countP_eq_length_filter]
    omega
  have hmain := findPathRec_forest reg hdeg from_typ to_typ hroot
    (reg.length + 1) from_typ []
    (by intro x hx; simp at hx)
    (Reach.refl from_typ)
    hcount
  constructor
  case left =>
    intro hreach
    obtain ⟨p, v2, hfound⟩ := hmain.1 hreach
    have hok : find_path reg from_typ to_typ = .ok p.reverse := by
      unfold find_path
      rw [hfound]
    obtain ⟨h1, h2, h3⟩ := find_path_sound reg from_typ to_typ p.reverse hok
    exact ⟨p.reverse, hok, h1, h2, h3⟩
  case right =>
    intro hn
    obtain ⟨v2, hnf, _, _⟩ := hmain.2 hn
    unfold find_path
    rw [hnf]

/-- Witness for the amended C2 on the concrete forest
State(0) → Foo(1) → Baz(3), State(0) → Bar(2). -/
theorem c2_find_path_forest_witness :
    ([((0 : Ty), (1 : Ty)), (1, 3), (0, 2)].Pairwise (fun e f => e.2 ≠ f.2))
    ∧ (∀ e ∈ [((0 : Ty), (1 : Ty)), (1, 3), (0, 2)], e.2 ≠ 0)
    ∧ (∃ p, find_path [((0 : Ty), (1 : Ty)), (1, 3), (0, 2)] 0 3 = .ok p
        ∧ p.head? = some 0 ∧ p.getLast? = some 3
        ∧ List.Chain' (fun a b => (a, b) ∈ [((0 : Ty), (1 : Ty)), (1, 3), (0, 2)]) p)
    ∧ find_path [((0 : Ty), (1 : Ty)), (1, 3), (0, 2)] 0 5
        = .error .noRegisteredPath := by
  have hdeg : ([((0 : Ty), (1 : Ty)), (1, 3), (0, 2)].Pairwise
      (fun e f => e.2 ≠ f.2)) := by decide
  have hroot : ∀ e ∈ [((0 : Ty), (1 : Ty)), (1, 3), (0, 2)], e.2 ≠ (0 : Ty) := by
    decide
  refine ⟨hdeg, hroot, ?_, ?_⟩
  case _ =>
    refine (c2_find_path_forest _ 0 3 hdeg hroot).1 ?_
    refine Reach.tail (c := 3) (Reach.of_edge (b := 1) ?_) ?_
    · decide
    · decide
  case _ =>
    refine (c2_find_path_forest _ 0 5 hdeg hroot).2 ?_
    intro hreach
    obtain ⟨e, _, hedge⟩ := Reach.last_decomp hreach (by decide)
    simp at hedge

/-- The diamond-shaped DAG 0 → {1, 2}, 2 → {1, 3}. -/
def diamondReg : List (Ty × Ty) := [(0, 1), (0, 2), (2, 1), (2, 3)]

/-- A rank function witnessing that diamondReg is acyclic. -/
def diamondRank : Ty → Nat
  | 0 => 0
  | 2 => 1
  | 3 => 2
  | _ => 3

/-- A registry with a cycle 2 → 3 → 2 that is unreachable from type 0. -/
def strayCycleReg : List (Ty × Ty) := [(0, 1), (2, 3), (3, 2)]

/-- Claim C2, counterexample: diamondReg is a DAG (every edge strictly
increases diamondRank) and the chain 0 → 2 → 3 of registered projections
reaches 3 from 0, yet find_path panics with the DAG message instead of
returning a path; moreover a registry with a cycle that is unreachable from
the searched root is not rejected: the search silently returns a path. -/
theorem c2_find_path_counterexample :
    (diamondReg.all (fun e => decide (diamondRank e.1 < diamondRank e.2)) = true)
    ∧ List.Chain' (fun a b => (a, b) ∈ diamondReg) [0, 2, 3]
    ∧ find_path diamondReg 0 3 = .error .shouldBeDag
    ∧ ((2, 3) ∈ strayCycleReg ∧ (3, 2) ∈ strayCycleReg
        ∧ find_path strayCycleReg 0 1 = .ok [0, 1]) := by
  refine ⟨by decide, ?_, rfl, by decide, by decide, rfl⟩
  simp [List.chain'_cons, diamondReg]

end Guee

namespace Guee

/-! ### Callbacks and the accessor registry (src/guee/src/callback.rs).
A StateAccessor (a projection fn(&mut T) -> &mut U) is modelled by its
observable effect as a getter/setter pair over type-erased values; a failed
downcast (a panic in the source) is modelled as none. -/

/-- Model of StateAccessor: typed projection as a lens over erased values. -/
structure StateAccessor (El : Ty → Type) where
  input_type : Ty
  output_type : Ty
  get : AnyBox El → Option (AnyBox El)
  put : AnyBox El → AnyBox El → Option (AnyBox El)

/-- Model of AccessorRegistry: the HashMap from (source, target) type pairs
to projections, as an association list. -/
structure AccessorRegistry (El : Ty → Type) where
  accessors : List ((Ty × Ty) × StateAccessor El)

/-- Association-list lookup standing for indexing the accessor map. -/
def AccessorRegistry.lookup {El : Ty → Type} (r : AccessorRegistry El)
    (k : Ty × Ty) : Option (StateAccessor El) :=
  (r.accessors.find? (fun p => p.1 = k)).map (fun p => p.2)

/-- Model of AccessorRegistry::find_path: the search runs over the key set
of the accessor map. -/
def AccessorRegistry.find_path {El : Ty → Type} (r : AccessorRegistry El)
    (from_typ to_typ : Ty) : Except FindPathPanic (List Ty) :=
  Guee.find_path (r.accessors.map Prod.fst) from_typ to_typ

/-- The observable effect of AccessorRegistry::access followed by invoking a
mutation at the projected target: walk the path composing each hop
projection, apply the mutation at the focus, and write the results back. -/
def AccessorRegistry.modifyAlong {El : Ty → Type} (r : AccessorRegistry El)
    (f : AnyBox El → Option (AnyBox El)) :
    List Ty → AnyBox El → Option (AnyBox El)
  | src :: dst :: rest, a =>
    match r.lookup (src, dst) with
    | none => none
    | some acc =>
      match acc.get a with
      | none => none
      | some sub =>
        match r.modifyAlong f (dst :: rest) sub with
        | none => none
        | some sub2 => acc.put a sub2
  | _, a => f a

/-- A dispatched external callback: the erased callback closed over its
erased payload (DispatchedExternalCallback; run is the invoker). -/
structure DispatchedExternalCallback (El : Ty → Type) where
  input_type : Ty
  run : AnyBox El → Option (AnyBox El)

/-- Model of AccessorRegistry::invoke_callback: invoke directly when the
state type matches the callback input type, otherwise project along the
found accessor path first. -/
def AccessorRegistry.invoke_callback {El : Ty → Type} (r : AccessorRegistry El)
    (state : AnyBox El) (cd : DispatchedExternalCallback El) :
    Option (AnyBox El) :=
  if state.ty = cd.input_type then cd.run state
  else
    match r.find_path state.ty cd.input_type with
    | .ok path => r.modifyAlong cd.run path state
    | .error _ => none

/-- Model of PollToken: the counter value plus the phantom payload type as a
tag (PollToken::as_raw keeps only the counter). -/
structure PollToken where
  token : Nat
  ty : Ty
deriving DecidableEq, Repr

/-- Model of Callback: an external callback (input type plus the function
over state and payload) or an internal polling callback. -/
inductive Callback (El : Ty → Type) where
  | External (input_type : Ty) (f : AnyBox El → AnyBox El → Option (AnyBox El))
  | Internal (token : PollToken)

/-- Model of DispatchedCallbackStorage: queued external callbacks, the token
to payload map for internal callbacks, and the next token counter. -/
structure DispatchedCallbackStorage (El : Ty → Type) where
  external : List (DispatchedExternalCallback El)
  internal : List (Nat × AnyBox El)
  next_token : Nat

/-- Model of DispatchedCallbackStorage::dispatch_callback: push an external
callback closed over its payload, or stash an internal payload under the
token. -/
def DispatchedCallbackStorage.dispatch_callback {El : Ty → Type}
    (s : DispatchedCallbackStorage El) (c : Callback El) (payload : AnyBox El) :
    DispatchedCallbackStorage El :=
  match c with
  | .External input_type f =>
    { s with external := s.external ++ [⟨input_type, fun st => f st payload⟩] }
  | .Internal tk =>
    { s with internal := assocInsert tk.token payload s.internal }

/-- Model of DispatchedCallbackStorage::create_internal_callback: hands out
the current counter as a fresh token and bumps the counter. -/
def DispatchedCallbackStorage.create_internal_callback {El : Ty → Type}
    (s : DispatchedCallbackStorage El) (pty : Ty) :
    (Callback El × PollToken) × DispatchedCallbackStorage El :=
  let token : PollToken := ⟨s.next_token, pty⟩
  ((.Internal token, token), { s with next_token := s.next_token + 1 })

/-- Association-list removal standing for HashMap::remove. -/
def assocRemove {α β : Type} [DecidableEq α] (k : α) :
    List (α × β) → List (α × β)
  | [] => []
  | (k0, v0) :: rest => if k0 = k then rest else (k0, v0) :: assocRemove k rest

/-- Model of DispatchedCallbackStorage::poll_callback_result: take the
payload stored under the token (removing it) and downcast it. -/
def DispatchedCallbackStorage.poll_callback_result {El : Ty → Type}
    (s : DispatchedCallbackStorage El) (tk : PollToken) :
    Option (El tk.ty) × DispatchedCallbackStorage El :=
  match (s.internal.find? (fun p => p.1 = tk.token)).map (fun p => p.2) with
  | none => (none, s)
  | some b => (b.downcast tk.ty, { s with internal := assocRemove tk.token s.internal })

/-- Model of DispatchedCallbackStorage::end_frame: clear the internal map,
invoke every queued external callback against the state in order, and reset
the token counter. -/
def DispatchedCallbackStorage.end_frame {El : Ty → Type}
    (s : DispatchedCallbackStorage El) (state : AnyBox El)
    (r : AccessorRegistry El) :
    Option (AnyBox El) × DispatchedCallbackStorage El :=
  (s.external.foldl (fun acc cd => acc.bind (fun st => r.invoke_callback st cd))
      (some state),
   { external := [], internal := [], next_token := 0 })

end Guee

namespace Guee

@[simp]
theorem AnyBox.downcast_self {El : Ty → Type} (t : Ty) (v : El t) :
    (⟨t, v⟩ : AnyBox El).downcast t = some v := by
  simp [AnyBox.downcast]

/-- Lookup of an absent key finds nothing. -/
theorem find_none_of_key_not_mem {α β : Type} [DecidableEq α] (k : α) :
    ∀ l : List (α × β), k ∉ l.map Prod.fst →
      l.find? (fun p => p.1 = k) = none := by
  intro l
  induction l with
  | nil => intro _; rfl
  | cons p rest ih =>
    intro hk
    simp only [List.map_cons, List.mem_cons] at hk
    push_neg at hk
    have h1 : ¬ (p.1 = k) := fun hh => hk.1 hh.symm
    simp [List.find?_cons, h1, ih hk.2]

/-- Insertion keeps association keys unique. -/
theorem assocInsert_keys_nodup {α β : Type} [DecidableEq α] (k : α) (v : β) :
    ∀ l : List (α × β), (l.map Prod.fst).Nodup →
      ((assocInsert k v l).map Prod.fst).Nodup := by
  intro l
  induction l with
  | nil => intro _; simp [assocInsert]
  | cons p rest ih =>
    intro hnd
    simp only [List.map_cons, List.nodup_cons] at hnd
    by_cases hk : p.1 = k
    case pos =>
      simp only [assocInsert, if_pos hk, List.map_cons, List.nodup_cons]
      exact ⟨by rw [← hk]; exact hnd.1, hnd.2⟩
    case neg =>
      simp only [assocInsert, if_neg hk, List.map_cons, List.nodup_cons]
      constructor
      case left =>
        intro hmem
        rcases hmem2 : p.1 ∈ rest.map Prod.fst with _
        have : ∀ l2 : List (α × β), p.1 ∉ l2.map Prod.fst → p.1 ≠ k →
            p.1 ∉ (assocInsert k v l2).map Prod.fst := by
          intro l2
          induction l2 with
          | nil =>
            intro _ hne
            simp only [assocInsert, List.map_cons, List.map_nil,
              List.mem_cons, List.not_mem_nil, or_false]
            exact hne
          | cons q qrest ihq =>
            intro hq hne
            simp only [List.map_cons, List.mem_cons] at hq
            push_neg at hq
            by_cases hqk : q.1 = k
            case pos =>
              simp only [assocInsert, if_pos hqk, List.map_cons, List.mem_cons]
              rintro (hh | hh)
              · exact hne hh
              · exact hq.2 hh
            case neg =>
              simp only [assocInsert, if_neg hqk, List.map_cons, List.mem_cons]
              rintro (hh | hh)
              · exact hq.1 hh
              · exact ihq hq.2 hne hh
        exact this rest hnd.1 hk hmem
      case right => exact ih hnd.2

/-- Removing a key from a unique-key association list leaves no binding for
it. -/
theorem assocRemove_find_none {α β : Type} [DecidableEq α] (k : α) :
    ∀ l : List (α × β), (l.map Prod.fst).Nodup →
      (assocRemove k l).find? (fun p => p.1 = k) = none := by
  intro l
  induction l with
  | nil => intro _; rfl
  | cons p rest ih =>
    intro hnd
    simp only [List.map_cons, List.nodup_cons] at hnd
    by_cases hk : p.1 = k
    case pos =>
      rw [assocRemove, if_pos hk]
      apply find_none_of_key_not_mem
      rw [← hk]
      exact hnd.1
    case neg =>
      rw [assocRemove, if_neg hk]
      have hrest := ih hnd.2
      rw [List.find?_eq_none] at hrest ⊢
      intro x hx
      rcases List.mem_cons.mp hx with h | h
      · subst h
        simpa using hk
      · exact hrest x h

/-- Claim C8: a dispatched internal payload is consumed by the first poll of
its token and gone for the second; end_frame clears all internal storage and
resets the token counter. -/
theorem c8_internal_single_consumption (El : Ty → Type) :
    (∀ (s : DispatchedCallbackStorage El) (tk : PollToken) (v : El tk.ty),
      (s.internal.map Prod.fst).Nodup →
      ((s.dispatch_callback (.Internal tk) ⟨tk.ty, v⟩).poll_callback_result tk).1
          = some v
      ∧ (((s.dispatch_callback (.Internal tk) ⟨tk.ty, v⟩).poll_callback_result
            tk).2.poll_callback_result tk).1 = none)
    ∧ (∀ (s : DispatchedCallbackStorage El) (state : AnyBox El)
        (r : AccessorRegistry El),
        (s.end_frame state r).2.internal = []
        ∧ (s.end_frame state r).2.next_token = 0
        ∧ (s.end_frame state r).2.external = []) := by
  constructor
  case left =>
    intro s tk v hnd
    have hfind := assocInsert_find_self tk.token (⟨tk.ty, v⟩ : AnyBox El) s.internal
    constructor
    case left =>
      simp [DispatchedCallbackStorage.dispatch_callback,
        DispatchedCallbackStorage.poll_callback_result, hfind]
    case right =>
      have hnd2 := assocInsert_keys_nodup tk.token (⟨tk.ty, v⟩ : AnyBox El)
        s.internal hnd
      have hrem := assocRemove_find_none tk.token
        (assocInsert tk.token (⟨tk.ty, v⟩ : AnyBox El) s.internal) hnd2
      simp [DispatchedCallbackStorage.dispatch_callback,
        DispatchedCallbackStorage.poll_callback_result, hfind, hrem]
  case right =>
    intro s state r
    exact ⟨rfl, rfl, rfl⟩

/-- Witness for C8 on a concrete empty storage over natEl. -/
theorem c8_internal_single_consumption_witness :
    ((([] : List (Nat × AnyBox natEl)).map Prod.fst).Nodup)
    ∧ (((⟨[], [], 0⟩ : DispatchedCallbackStorage natEl).dispatch_callback
          (.Internal ⟨0, 0⟩) ⟨0, 5⟩).poll_callback_result ⟨0, 0⟩).1 = some 5
    ∧ ((((⟨[], [], 0⟩ : DispatchedCallbackStorage natEl).dispatch_callback
          (.Internal ⟨0, 0⟩) ⟨0, 5⟩).poll_callback_result
            ⟨0, 0⟩).2.poll_callback_result ⟨0, 0⟩).1 = none
    ∧ ((⟨[], [], 0⟩ : DispatchedCallbackStorage natEl).end_frame ⟨0, 5⟩
        ⟨[]⟩).2.internal = []
    ∧ ((⟨[], [], 0⟩ : DispatchedCallbackStorage natEl).end_frame ⟨0, 5⟩
        ⟨[]⟩).2.next_token = 0 := by
  have hmain := c8_internal_single_consumption natEl
  have hpart := hmain.1 ⟨[], [], 0⟩ ⟨0, 0⟩ (5 : natEl 0) (by simp)
  have hend := hmain.2 ⟨[], [], 0⟩ ⟨0, 5⟩ ⟨[]⟩
  exact ⟨by simp, hpart.1, hpart.2, hend.1, hend.2.1⟩

end Guee

namespace Guee

/-! ### Claim C10: token freshness within a frame -/

/-- The storage operations available within one frame (end_frame excluded:
the claim is about calls without an intervening end of frame). -/
inductive CbOp (El : Ty → Type) where
  | create (pty : Ty)
  | dispatch (c : Callback El) (payload : AnyBox El)
  | poll (tk : PollToken)

/-- Apply one storage operation. -/
def CbOp.apply {El : Ty → Type} (s : DispatchedCallbackStorage El) :
    CbOp El → DispatchedCallbackStorage El
  | .create pty => (s.create_internal_callback pty).2
  | .dispatch c p => s.dispatch_callback c p
  | .poll tk => (s.poll_callback_result tk).2

/-- The tokens returned by the create calls of an operation sequence. -/
def tokensCreated {El : Ty → Type} (s : DispatchedCallbackStorage El) :
    List (CbOp El) → List Nat
  | [] => []
  | op :: rest =>
    match op with
    | .create pty =>
      ((s.create_internal_callback pty).1.2).token
        :: tokensCreated (CbOp.apply s op) rest
    | _ => tokensCreated (CbOp.apply s op) rest

/-- No within-frame operation ever lowers the token counter. -/
theorem cbOp_next_token_mono {El : Ty → Type}
    (s : DispatchedCallbackStorage El) (op : CbOp El) :
    s.next_token ≤ (CbOp.apply s op).next_token := by
  rcases op with pty | ⟨c, p⟩ | tk
  case create => simp [CbOp.apply, DispatchedCallbackStorage.create_internal_callback]
  case dispatch =>
    rcases c with ⟨it, f⟩ | tk2 <;>
      simp [CbOp.apply, DispatchedCallbackStorage.dispatch_callback]
  case poll =>
    rw [CbOp.apply, DispatchedCallbackStorage.poll_callback_result]
    cases hf : (s.internal.find? (fun p => p.1 = tk.token)).map (fun p => p.2) with
    | none => simp [hf]
    | some b => simp [hf]

/-- Every token created during a sequence is at least the starting counter. -/
theorem tokensCreated_ge {El : Ty → Type} :
    ∀ (ops : List (CbOp El)) (s : DispatchedCallbackStorage El),
      ∀ t ∈ tokensCreated s ops, s.next_token ≤ t := by
  intro ops
  induction ops with
  | nil => intro s t ht; simp [tokensCreated] at ht
  | cons op rest ih =>
    intro s t ht
    have hmono := cbOp_next_token_mono s op
    rcases op with pty | ⟨c, p⟩ | tk
    case create =>
      rcases List.mem_cons.mp ht with h | h
      · rw [h]
        simp [DispatchedCallbackStorage.create_internal_callback]
      · exact le_trans hmono (ih (CbOp.apply s (.create pty)) t h)
    case dispatch =>
      exact le_trans hmono (ih (CbOp.apply s (.dispatch c p)) t ht)
    case poll =>
      exact le_trans hmono (ih (CbOp.apply s (.poll tk)) t ht)

/-- Claim C10: within a single frame every create_internal_callback returns a
token strictly greater than every earlier one (so tokens are pairwise
distinct), and a payload dispatched to one token is invisible through any
other token. -/
theorem c10_token_freshness (El : Ty → Type) :
    (∀ (s : DispatchedCallbackStorage El) (ops : List (CbOp El)),
      (tokensCreated s ops).Pairwise (· < ·))
    ∧ (∀ (s : DispatchedCallbackStorage El) (tk tk2 : PollToken)
        (p : AnyBox El), tk.token ≠ tk2.token →
        ((s.dispatch_callback (.Internal tk) p).poll_callback_result tk2).1
          = (s.poll_callback_result tk2).1) := by
  constructor
  case left =>
    intro s ops
    induction ops generalizing s with
    | nil => simp [tokensCreated]
    | cons op rest ih =>
      rcases op with pty | ⟨c, p⟩ | tk
      case create =>
        rw [tokensCreated]
        refine List.pairwise_cons.mpr ⟨?_, ih _⟩
        intro t ht
        have := tokensCreated_ge rest (CbOp.apply s (.create pty)) t ht
        simp only [CbOp.apply, DispatchedCallbackStorage.create_internal_callback]
          at this
        simp only [DispatchedCallbackStorage.create_internal_callback]
        omega
      case dispatch => exact ih _
      case poll => exact ih _
  case right =>
    intro s tk tk2 p hne
    have hfind : ((assocInsert tk.token p s.internal).find?
          (fun q => q.1 = tk2.token)).map (fun q => q.2)
        = (s.internal.find? (fun q => q.1 = tk2.token)).map (fun q => q.2) := by
      congr 1
      induction s.internal with
      | nil =>
        have h1 : ((tk.token, p) : Nat × AnyBox El).1 ≠ tk2.token := hne
        simp [assocInsert, List.find?_cons_of_neg, h1]
      | cons q qrest ihq =>
        by_cases hq : q.1 = tk.token
        case pos =>
          rw [assocInsert, if_pos hq]
          have h1 : (decide (tk.token = tk2.token)) = false := by
            simp [hne]
          have h2 : (decide (q.1 = tk2.token)) = false := by
            simp only [decide_eq_false_iff_not]
            rw [hq]
            exact hne
          simp only [List.find?_cons, h1, h2]
        case neg =>
          rw [assocInsert, if_neg hq]
          by_cases hq2 : q.1 = tk2.token
          case pos =>
            have hb : decide (q.1 = tk2.token) = true := by simp [hq2]
            simp only [List.find?_cons, hb]
          case neg =>
            have hb : (decide (q.1 = tk2.token)) = false := by simp [hq2]
            simp only [List.find?_cons, hb, ihq]
    simp only [DispatchedCallbackStorage.dispatch_callback,
      DispatchedCallbackStorage.poll_callback_result]
    simp only [hfind]
    cases hscrut : (s.internal.find? (fun q => q.1 = tk2.token)).map (fun q => q.2)
      with
    | none => simp [hscrut]
    | some b => simp [hscrut]

/-- Witness for C10 on a concrete empty storage: two creates return 0 then 1,
and a dispatch to token 0 is invisible through token 1. -/
theorem c10_token_freshness_witness :
    (tokensCreated (⟨[], [], 0⟩ : DispatchedCallbackStorage natEl)
        [.create 0, .create 0]).Pairwise (· < ·)
    ∧ tokensCreated (⟨[], [], 0⟩ : DispatchedCallbackStorage natEl)
        [.create 0, .create 0] = [0, 1]
    ∧ ((0 : Nat) ≠ (1 : Nat))
    ∧ (((⟨[], [], 0⟩ : DispatchedCallbackStorage natEl).dispatch_callback
          (.Internal ⟨0, 0⟩) ⟨0, 5⟩).poll_callback_result ⟨1, 0⟩).1
        = ((⟨[], [], 0⟩ : DispatchedCallbackStorage natEl).poll_callback_result
            ⟨1, 0⟩).1 := by
  have hmain := c10_token_freshness natEl
  refine ⟨hmain.1 ⟨[], [], 0⟩ [.create 0, .create 0], rfl, by decide,
    hmain.2 ⟨[], [], 0⟩ ⟨0, 0⟩ ⟨1, 0⟩ ⟨0, 5⟩ (by decide)⟩

end Guee

namespace Guee

/-! ### Claim C3: accessor path composition on the concrete test state
(the State/Foo/Bar/Baz shape from callback.rs and the spec). -/

/-- The Baz leaf sub-state. -/
structure Baz where
  y : ℚ
deriving DecidableEq, Repr

/-- The Bar sub-state. -/
structure Bar where
  x : ℚ
deriving DecidableEq, Repr

/-- The Foo sub-state holding a Baz. -/
structure Foo where
  baz : Baz
deriving DecidableEq, Repr

/-- The root application state. -/
structure State where
  foo : Foo
  bar : Bar
deriving DecidableEq, Repr

/-- Tag interpretation for the test state: 0 is State, 1 is Foo, 2 is Bar,
3 is Baz. -/
@[reducible]
def appEl : Ty → Type
  | 0 => State
  | 1 => Foo
  | 2 => Bar
  | 3 => Baz
  | _ => PUnit

/-- The registered projection State → Foo. -/
def stateFooAcc : StateAccessor appEl :=
  { input_type := 0, output_type := 1
    get := fun b => (b.downcast 0).map (fun s => ⟨1, s.foo⟩)
    put := fun b sub => (b.downcast 0).bind
      (fun s => (sub.downcast 1).map (fun f => ⟨0, { s with foo := f }⟩)) }

/-- The registered projection Foo → Baz. -/
def fooBazAcc : StateAccessor appEl :=
  { input_type := 1, output_type := 3
    get := fun b => (b.downcast 1).map (fun f => ⟨3, f.baz⟩)
    put := fun b sub => (b.downcast 1).bind
      (fun f => (sub.downcast 3).map (fun z => ⟨1, { f with baz := z }⟩)) }

/-- The registered projection State → Bar. -/
def stateBarAcc : StateAccessor appEl :=
  { input_type := 0, output_type := 2
    get := fun b => (b.downcast 0).map (fun s => ⟨2, s.bar⟩)
    put := fun b sub => (b.downcast 0).bind
      (fun s => (sub.downcast 2).map (fun r => ⟨0, { s with bar := r }⟩)) }

/-- The registry with State → Foo, Foo → Baz and State → Bar registered. -/
def appRegistry : AccessorRegistry appEl :=
  ⟨[((0, 1), stateFooAcc), ((1, 3), fooBazAcc), ((0, 2), stateBarAcc)]⟩

/-- An external callback typed for Baz, closed over its payload as the
mutation f. -/
def bazCallback (f : Baz → Baz) : DispatchedExternalCallback appEl :=
  { input_type := 3
    run := fun b => (b.downcast 3).map (fun z => ⟨3, f z⟩) }

/-- Claim C3: dispatching a Baz-typed external callback and running
end_frame against a State root routes the mutation through
State → Foo → Baz: state.foo.baz is replaced by f state.foo.baz and
state.bar is untouched. -/
theorem c3_accessor_path_mutation (f : Baz → Baz) (s : State)
    (intl : List (Nat × AnyBox appEl)) (nt : Nat) :
    ((⟨[bazCallback f], intl, nt⟩ :
        DispatchedCallbackStorage appEl).end_frame ⟨0, s⟩ appRegistry).1
      = some ⟨0, { foo := { baz := f s.foo.baz }, bar := s.bar }⟩ := by
  rfl

end Guee
